import Mathlib

/-!
Verification development for the `flatten_dict` library
(`src/flatten_dict/flatten_dict.py`).

The Python values that the library manipulates are modelled by the mutual
inductive type `PVal` below: strings, integers, `None`, the `ListIndex`
marker type (imported by the source from `key_types`, which is not part of
the sources at hand; it is modelled from the spec as an integer-carrying
marker), tuples, lists, and insertion-ordered dicts.  Dicts are association
sequences whose lookup returns the first match, matching Python dict
semantics for the duplicate-free dicts the code constructs.
-/

mutual

inductive PVal where
  | str (s : String)
  | int (n : Int)
  | none
  | listIndex (n : Int)
  | tup (xs : PList)
  | list (xs : PList)
  | dict (kvs : PDict)

inductive PList where
  | nil
  | cons (x : PVal) (xs : PList)

inductive PDict where
  | nil
  | cons (k v : PVal) (kvs : PDict)

end

mutual

/-- Decidable equality on `PVal`, matching Python `==` on these values. -/
def PVal.deq : (a b : PVal) → Decidable (a = b)
  | .str s, .str t =>
      match String.decEq s t with
      | isTrue h => isTrue (by rw [h])
      | isFalse h => isFalse (by intro hc; cases hc; exact h rfl)
  | .int m, .int n =>
      match Int.decEq m n with
      | isTrue h => isTrue (by rw [h])
      | isFalse h => isFalse (by intro hc; cases hc; exact h rfl)
  | .none, .none => isTrue rfl
  | .listIndex m, .listIndex n =>
      match Int.decEq m n with
      | isTrue h => isTrue (by rw [h])
      | isFalse h => isFalse (by intro hc; cases hc; exact h rfl)
  | .tup xs, .tup ys =>
      match PList.deq xs ys with
      | isTrue h => isTrue (by rw [h])
      | isFalse h => isFalse (by intro hc; cases hc; exact h rfl)
  | .list xs, .list ys =>
      match PList.deq xs ys with
      | isTrue h => isTrue (by rw [h])
      | isFalse h => isFalse (by intro hc; cases hc; exact h rfl)
  | .dict xs, .dict ys =>
      match PDict.deq xs ys with
      | isTrue h => isTrue (by rw [h])
      | isFalse h => isFalse (by intro hc; cases hc; exact h rfl)
  | .str _, .int _ => isFalse (by intro h; cases h)
  | .str _, .none => isFalse (by intro h; cases h)
  | .str _, .listIndex _ => isFalse (by intro h; cases h)
  | .str _, .tup _ => isFalse (by intro h; cases h)
  | .str _, .list _ => isFalse (by intro h; cases h)
  | .str _, .dict _ => isFalse (by intro h; cases h)
  | .int _, .str _ => isFalse (by intro h; cases h)
  | .int _, .none => isFalse (by intro h; cases h)
  | .int _, .listIndex _ => isFalse (by intro h; cases h)
  | .int _, .tup _ => isFalse (by intro h; cases h)
  | .int _, .list _ => isFalse (by intro h; cases h)
  | .int _, .dict _ => isFalse (by intro h; cases h)
  | .none, .str _ => isFalse (by intro h; cases h)
  | .none, .int _ => isFalse (by intro h; cases h)
  | .none, .listIndex _ => isFalse (by intro h; cases h)
  | .none, .tup _ => isFalse (by intro h; cases h)
  | .none, .list _ => isFalse (by intro h; cases h)
  | .none, .dict _ => isFalse (by intro h; cases h)
  | .listIndex _, .str _ => isFalse (by intro h; cases h)
  | .listIndex _, .int _ => isFalse (by intro h; cases h)
  | .listIndex _, .none => isFalse (by intro h; cases h)
  | .listIndex _, .tup _ => isFalse (by intro h; cases h)
  | .listIndex _, .list _ => isFalse (by intro h; cases h)
  | .listIndex _, .dict _ => isFalse (by intro h; cases h)
  | .tup _, .str _ => isFalse (by intro h; cases h)
  | .tup _, .int _ => isFalse (by intro h; cases h)
  | .tup _, .none => isFalse (by intro h; cases h)
  | .tup _, .listIndex _ => isFalse (by intro h; cases h)
  | .tup _, .list _ => isFalse (by intro h; cases h)
  | .tup _, .dict _ => isFalse (by intro h; cases h)
  | .list _, .str _ => isFalse (by intro h; cases h)
  | .list _, .int _ => isFalse (by intro h; cases h)
  | .list _, .none => isFalse (by intro h; cases h)
  | .list _, .listIndex _ => isFalse (by intro h; cases h)
  | .list _, .tup _ => isFalse (by intro h; cases h)
  | .list _, .dict _ => isFalse (by intro h; cases h)
  | .dict _, .str _ => isFalse (by intro h; cases h)
  | .dict _, .int _ => isFalse (by intro h; cases h)
  | .dict _, .none => isFalse (by intro h; cases h)
  | .dict _, .listIndex _ => isFalse (by intro h; cases h)
  | .dict _, .tup _ => isFalse (by intro h; cases h)
  | .dict _, .list _ => isFalse (by intro h; cases h)

/-- Decidable equality on `PList`. -/
def PList.deq : (a b : PList) → Decidable (a = b)
  | .nil, .nil => isTrue rfl
  | .nil, .cons _ _ => isFalse (by intro h; cases h)
  | .cons _ _, .nil => isFalse (by intro h; cases h)
  | .cons x xs, .cons y ys =>
      match PVal.deq x y, PList.deq xs ys with
      | isTrue h1, isTrue h2 => isTrue (by rw [h1, h2])
      | isFalse h1, _ => isFalse (by intro hc; cases hc; exact h1 rfl)
      | _, isFalse h2 => isFalse (by intro hc; cases hc; exact h2 rfl)

/-- Decidable equality on `PDict`. -/
def PDict.deq : (a b : PDict) → Decidable (a = b)
  | .nil, .nil => isTrue rfl
  | .nil, .cons _ _ _ => isFalse (by intro h; cases h)
  | .cons _ _ _, .nil => isFalse (by intro h; cases h)
  | .cons k v kvs, .cons k' v' kvs' =>
      match PVal.deq k k', PVal.deq v v', PDict.deq kvs kvs' with
      | isTrue h1, isTrue h2, isTrue h3 => isTrue (by rw [h1, h2, h3])
      | isFalse h1, _, _ => isFalse (by intro hc; cases hc; exact h1 rfl)
      | _, isFalse h2, _ => isFalse (by intro hc; cases hc; exact h2 rfl)
      | _, _, isFalse h3 => isFalse (by intro hc; cases hc; exact h3 rfl)

end

instance : DecidableEq PVal := PVal.deq
instance : DecidableEq PList := PList.deq
instance : DecidableEq PDict := PDict.deq

/-- Runtime type tags, standing for the Python types that the source code
passes around in `enumerate_types`, `keep_empty_types` and
`list_index_types`. -/
inductive PType where
  | str
  | int
  | none
  | listIndex
  | tup
  | list
  | dict
deriving DecidableEq

/-- The runtime type of a value (`type(v)` in Python). -/
def PVal.typeOf : PVal → PType
  | .str _ => .str
  | .int _ => .int
  | .none => .none
  | .listIndex _ => .listIndex
  | .tup _ => .tup
  | .list _ => .list
  | .dict _ => .dict

/-- Python truthiness (`if value:` in the source): empty containers, empty
strings, zero integers and `None` are falsy. -/
def PVal.truthy : PVal → Bool
  | .str s => s ≠ ""
  | .int n => n ≠ 0
  | .none => false
  | .listIndex n => n ≠ 0
  | .tup .nil => false
  | .tup (.cons _ _) => true
  | .list .nil => false
  | .list (.cons _ _) => true
  | .dict .nil => false
  | .dict (.cons _ _ _) => true

/-- First-match lookup in a `PDict`, as Python `key in d` / `d[key]`. -/
def PDict.lookup : PDict → PVal → Option PVal
  | .nil, _ => Option.none
  | .cons k v kvs, key => if k = key then some v else kvs.lookup key

/-- In-place update of an existing key (Python `d[key] = value` when `key`
is already present keeps the entry's position). -/
def PDict.set : PDict → PVal → PVal → PDict
  | .nil, _, _ => .nil
  | .cons k v kvs, key, value =>
      if k = key then .cons k value kvs else .cons k v (kvs.set key value)

/-- Appending a fresh key at the end (Python `d[key] = value` for an absent
key appends in insertion order). -/
def PDict.push : PDict → PVal → PVal → PDict
  | .nil, key, value => .cons key value .nil
  | .cons k v kvs, key, value => .cons k v (kvs.push key value)

mutual

/-- Python hashability of a value: scalars are hashable, lists and dicts
are not, and a tuple is hashable exactly when all its elements are.
Hashing happens on every `key in d` / `d[key] = v` on a dict and on every
`flat_key in flat_dict`. -/
def PVal.hashable : PVal → Bool
  | .str _ => true
  | .int _ => true
  | .none => true
  | .listIndex _ => true
  | .tup xs => xs.allHashable
  | .list _ => false
  | .dict _ => false

def PList.allHashable : PList → Bool
  | .nil => true
  | .cons x xs => x.hashable && xs.allHashable

end

/-- Length of a `PList` (Python `len`). -/
def PList.length : PList → Nat
  | .nil => 0
  | .cons _ xs => xs.length + 1

/-- Element at a (non-negative, already resolved) index. -/
def PList.getIdx : PList → Nat → Option PVal
  | .nil, _ => Option.none
  | .cons x _, 0 => some x
  | .cons _ xs, n + 1 => xs.getIdx n

/-- Replace the element at a resolved index (Python `d[i] = v` on a list). -/
def PList.setIdx : PList → Nat → PVal → PList
  | .nil, _, _ => .nil
  | .cons _ xs, 0, v => .cons v xs
  | .cons x xs, n + 1, v => .cons x (xs.setIdx n v)

/-- Python `key in d` for a list or tuple `d`: membership by value
equality against the elements (no hashing, no index semantics). -/
def PList.memVal : PList → PVal → Bool
  | .nil, _ => false
  | .cons x xs, key => if x = key then true else xs.memVal key

/-- Python list/tuple index resolution: an integer `n` is a valid index of
a sequence of length `len` iff `-len ≤ n < len`; negative indices count
from the end. -/
def pyListIdx (n : Int) (len : Nat) : Option Nat :=
  if 0 ≤ n ∧ n < (len : Int) then some n.toNat
  else if -(len : Int) ≤ n ∧ n < 0 then some (n + (len : Int)).toNat
  else Option.none

/-- Does `needle` occur at the very start of `hay`? -/
def charsAtStart : List Char → List Char → Bool
  | [], _ => true
  | _ :: _, [] => false
  | c :: cs, d :: ds => if c = d then charsAtStart cs ds else false

/-- Does `needle` occur anywhere in `hay`? -/
def charsContain (needle : List Char) : List Char → Bool
  | [] => needle.isEmpty
  | d :: ds => charsAtStart needle (d :: ds) || charsContain needle ds

/-- Python `sub in s` for strings: substring containment (the empty string
is a substring of everything). -/
def strContains (s sub : String) : Bool := charsContain sub.toList s.toList

mutual

/-- A value through which `nested_set_dict` can only ever write dict
entries: no list or tuple is reachable through dict values.  Writing into
or through a list (or tuple) leaf uses Python's value-membership and
index-assignment semantics, which bypass the duplicate-key check; values
satisfying this predicate rule that out. -/
def PVal.dictSafe : PVal → Bool
  | .dict kvs => kvs.dictSafeD
  | .list _ => false
  | .tup _ => false
  | .str _ => true
  | .int _ => true
  | .none => true
  | .listIndex _ => true

def PDict.dictSafeD : PDict → Bool
  | .nil => true
  | .cons _ v kvs => v.dictSafe && kvs.dictSafeD

end

/-- The flat dict built by `flatten`: an insertion-ordered association list
from flat key to value. -/
abbrev Flat := List (PVal × PVal)

/-- First-match lookup in a flat dict. -/
def flatLookup : Flat → PVal → Option PVal
  | [], _ => Option.none
  | (k, v) :: rest, key => if k = key then some v else flatLookup rest key

/-- The errors the source raises, each constructor tagged with the data the
corresponding `raise` carries.  `invalidRootType`, `invalidDepth`,
`duplicatedKey` and `duplicatedKeyPath` are the `ValueError`s raised at
lines 76, 83, 110 and 132 of `flatten_dict.py`; `typeError` stands for the
`TypeError` Python raises when `nested_set_dict` recurses into a non-mapping
value; `assertionError` is the failure of the `assert` at line 126. -/
inductive PyErr where
  | invalidRootType
  | invalidDepth
  | duplicatedKey (key : PVal)
  | duplicatedKeyPath (keys : List PVal)
  | typeError
  | indexError
  | assertionError
deriving DecidableEq

/-- Python `str()` of the scalar values that the string-joining reducers
format into flat keys. -/
def PVal.pyStr : PVal → String
  | .str s => s
  | .int n => toString n
  | .none => "None"
  | .listIndex n => toString n
  | .tup _ => "tuple"
  | .list _ => "list"
  | .dict _ => "dict"

/-- Modelled from the spec: `tuple_reducer` from the `reducers` module,
which is not among the sources at hand.  The flat key is the ordered tuple
of all segments from root to leaf (spec section 4.1). -/
def tuple_reducer : Option PVal → PVal → PVal
  | Option.none, k => .tup (.cons k .nil)
  | some (.tup ks), k => .tup (pListAppend ks k)
  | some p, k => .tup (.cons p (.cons k .nil))
where pListAppend : PList → PVal → PList
  | .nil, k => .cons k .nil
  | .cons x xs, k => .cons x (pListAppend xs k)

/-- Modelled from the spec: `dot_reducer`; segments are joined with `.`
(spec section 4.1), a lone segment is kept as is. -/
def dot_reducer : Option PVal → PVal → PVal
  | Option.none, k => k
  | some p, k => .str (p.pyStr ++ "." ++ k.pyStr)

/-- Modelled from the spec: `underscore_reducer`; segments are joined with
`_` (spec section 4.1), a lone segment is kept as is. -/
def underscore_reducer : Option PVal → PVal → PVal
  | Option.none, k => k
  | some p, k => .str (p.pyStr ++ "_" ++ k.pyStr)

/-- Modelled from the spec: `path_reducer`; segments are joined as
filesystem-path components (spec section 4.1). -/
def path_reducer : Option PVal → PVal → PVal
  | Option.none, k => k
  | some p, k => .str (p.pyStr ++ "/" ++ k.pyStr)

/-- Modelled from the spec: `tuple_splitter`; the split returns the tuple
of segments unchanged (spec section 4.1).  On a non-tuple flat key Python
would iterate the key's elements; for a string that is its characters, and
other scalars are not indexable (never reached by the claims). -/
def tuple_splitter : PVal → List PVal
  | .tup ks => pListToList ks
  | .str s => s.toList.map (fun c => .str (String.singleton c))
  | v => [v]
where pListToList : PList → List PVal
  | .nil => []
  | .cons x xs => x :: pListToList xs

/-- Modelled from the spec: `dot_splitter`; the flat key is split on `.`
(spec section 4.1). -/
def dot_splitter : PVal → List PVal
  | .str s => (s.splitOn ".").map PVal.str
  | v => [v]

/-- Modelled from the spec: `underscore_splitter`; the flat key is split on
`_` (spec section 4.1). -/
def underscore_splitter : PVal → List PVal
  | .str s => (s.splitOn "_").map PVal.str
  | v => [v]

/-- Modelled from the spec: `path_splitter`; the flat key is parsed back
into its path components (spec section 4.1). -/
def path_splitter : PVal → List PVal
  | .str s => ((s.splitOn "/").filter (· ≠ "")).map PVal.str
  | v => [v]

/-- `isinstance(v, flattenable_types)` where
`flattenable_types = (Mapping,) + enumerate_types` (line 74 of the source). -/
def isFlattenable (enumTypes : List PType) (v : PVal) : Bool :=
  v.typeOf = PType.dict || enumTypes.contains v.typeOf

/-- The depth guard of line 96: `max_flatten_depth is None or depth < max_flatten_depth`. -/
def depthOK (maxDepth : Option Int) (depth : Int) : Bool :=
  match maxDepth with
  | Option.none => true
  | some k => depth < k

section FlattenEngine

variable (reducer : Option PVal → PVal → PVal) (inverse : Bool)
variable (maxDepth : Option Int) (enumTypes keepEmptyTypes : List PType)

/-- Lines 106-111 of the source: swap key and value if `inverse`, raise on a
duplicated flat key, otherwise add the item to the result.  The membership
test `flat_key in flat_dict` hashes its key; the model compares keys by
structural equality, which coincides with Python `==` exactly on hashable
keys — every key a Python input dict can contain, hence every flat key the
built-in reducers emit.  An unhashable flat key (possible only when
`inverse=True` swaps an unhashable leaf value into key position, or with a
custom reducer emitting one) would instead make Python raise
`TypeError: unhashable type` at this membership test; theorems that put
values into key position therefore carry an explicit `PVal.hashable`
hypothesis confining them to the modelled domain. -/
def emit (flatKey value : PVal) (flat : Flat) : Except PyErr Flat :=
  let kv := if inverse then (value, flatKey) else (flatKey, value)
  if (flatLookup flat kv.1).isSome then .error (.duplicatedKey kv.1)
  else .ok (flat ++ [kv])

mutual

/-- The body of the `for key, value in key_value_iterable` loop of
`_flatten` (lines 93-111), for one `(key, value)` pair. -/
def flattenItem (key value : PVal) (depth : Int) (parent : Option PVal)
    (flat : Flat) : Except PyErr Flat :=
  let flatKey := reducer parent key
  if isFlattenable enumTypes value ∧ depthOK maxDepth depth then
    if value.truthy then
      flattenVal value (depth + 1) (some flatKey) flat
    else if keepEmptyTypes.contains value.typeOf then
      emit inverse flatKey value flat
    else
      .ok flat
  else
    emit inverse flatKey value flat
termination_by 2 * sizeOf value + 1
decreasing_by all_goals simp_wf

/-- One call of the recursive `_flatten` (lines 89-111): build the
`(key, value)` iterable — `enumerate(_d)` when `_d` is an instance of
`enumerate_types`, `six.viewitems(_d)` otherwise — and process each pair.
Python `enumerate` over a mapping yields its keys paired with indices.  A
non-container in `enumerate_types` would make `enumerate` raise in Python;
such values are never reached through `flatten` (its root and recursion
guards admit only flattenable values) and the model returns the
accumulator unchanged there. -/
def flattenVal (d : PVal) (depth : Int) (parent : Option PVal)
    (flat : Flat) : Except PyErr Flat :=
  if enumTypes.contains d.typeOf then
    match d with
    | .list xs => flattenEnum xs 0 depth parent flat
    | .tup xs => flattenEnum xs 0 depth parent flat
    | .dict kvs => flattenEnumKeys kvs 0 depth parent flat
    | _ => .ok flat
  else
    match d with
    | .dict kvs => flattenDict kvs depth parent flat
    | _ => .ok flat
termination_by 2 * sizeOf d
decreasing_by all_goals simp_wf

/-- Iterating `six.viewitems(_d)` of a mapping in insertion order. -/
def flattenDict (kvs : PDict) (depth : Int) (parent : Option PVal)
    (flat : Flat) : Except PyErr Flat :=
  match kvs with
  | .nil => .ok flat
  | .cons k v rest => do
      let flat' ← flattenItem k v depth parent flat
      flattenDict rest depth parent flat'
termination_by 2 * sizeOf kvs
decreasing_by all_goals (simp_wf <;> omega)

/-- Iterating `enumerate(_d)` of a sequence: indices become keys. -/
def flattenEnum (xs : PList) (i : Int) (depth : Int) (parent : Option PVal)
    (flat : Flat) : Except PyErr Flat :=
  match xs with
  | .nil => .ok flat
  | .cons x rest => do
      let flat' ← flattenItem (.int i) x depth parent flat
      flattenEnum rest (i + 1) depth parent flat'
termination_by 2 * sizeOf xs
decreasing_by all_goals (simp_wf <;> omega)

/-- Iterating `enumerate(_d)` of a mapping: Python yields the keys. -/
def flattenEnumKeys (kvs : PDict) (i : Int) (depth : Int) (parent : Option PVal)
    (flat : Flat) : Except PyErr Flat :=
  match kvs with
  | .nil => .ok flat
  | .cons k _ rest => do
      let flat' ← flattenItem (.int i) k depth parent flat
      flattenEnumKeys rest (i + 1) depth parent flat'
termination_by 2 * sizeOf kvs
decreasing_by all_goals (simp_wf <;> omega)

end

end FlattenEngine

/-- The `flatten` entry point (lines 30-114): reject a non-flattenable
root, reject `max_flatten_depth < 1`, then run the recursive traversal
starting at depth 1 with no parent and an empty result. -/
def flatten (d : PVal) (reducer : Option PVal → PVal → PVal)
    (inverse : Bool) (maxDepth : Option Int)
    (enumTypes keepEmptyTypes : List PType) : Except PyErr Flat :=
  if ¬ isFlattenable enumTypes d then .error .invalidRootType
  else if (match maxDepth with | some k => decide (k < 1) | Option.none => false) then
    .error .invalidDepth
  else
    flattenVal reducer inverse maxDepth enumTypes keepEmptyTypes d 1 Option.none []

/-- The recursion of `nested_set_dict` (lines 117-142 of the source),
with the still-to-process suffix of `keys` as the structurally decreasing
argument (`suffix = keys[level:]`); `full` is the complete `keys` tuple the
source formats into the duplicate-key error.  An empty suffix at entry is
the failure of `assert len(keys) > level`.

The behaviour of `key in d`, `d[key]` and `d[key] = v` depends on the
runtime type of the node `d`:

* dict: `key in d` hashes the probe, so an unhashable `key` raises
  `TypeError` before anything else; for a hashable probe, membership is
  key lookup.  At the last key a present key raises the duplicate-path
  error and an absent key is inserted; at an intermediate key a present
  key's value is recursed into and an absent key gets a fresh `{}`
  (assigned into `d` before the recursion, which then mutates it — the
  model recurses from the empty dict and stores the result, the same
  thing on every run).

* list: `key in d` is value membership against the elements (so `0 in
  [5]` is `False`); `d[key] = v` and `d[key]` are index operations that
  require `key` to be an int `n` with `-len(d) ≤ n < len(d)` (negative
  indices count from the end), raising `TypeError` for a non-int key and
  `IndexError` for an out-of-range int.  Hence at the last key a
  non-member in-range int silently overwrites the element, and at an
  intermediate key the code reads (member) or plants a fresh `{}`
  (non-member) at that index and recurses.

* tuple: membership as for lists; a member in-range int index is read
  and recursed into (Python then mutates the fetched element in place;
  the model rebuilds the tuple with the updated element, observationally
  the same), while every item assignment raises `TypeError`.

* str: `key in d` requires a str probe (else `TypeError`) and tests
  substring containment, so at the last key a substring probe raises the
  duplicate-path error; every other path ends in `TypeError` (string
  item access/assignment with a str key).

* int / None / ListIndex: `key in d` raises `TypeError` (not iterable).

Membership and lookup compare by structural equality here, which agrees
with Python `==` for every hashable probe; Python compares dict-valued
probes content-wise ignoring insertion order, a case no dict can produce
as a stored key.  The source mutates the shared structure in place; the
model rebuilds the updated node, which agrees with the source on every
run that does not raise, unless the input aliases one mutable object at
several positions — an object-identity distinction outside this
embedding. -/
def nested_set_dict_go (full : List PVal) (value : PVal) :
    PVal → List PVal → Except PyErr PVal
  | _, [] => .error .assertionError
  | .dict kvs, key :: rest =>
      if key.hashable then
        match rest with
        | [] =>
            if (kvs.lookup key).isSome then .error (.duplicatedKeyPath full)
            else .ok (.dict (kvs.push key value))
        | _ :: _ =>
            match kvs.lookup key with
            | some inner =>
                (nested_set_dict_go full value inner rest).map
                  (fun inner' => .dict (kvs.set key inner'))
            | Option.none =>
                (nested_set_dict_go full value (.dict .nil) rest).map
                  (fun inner' => .dict (kvs.push key inner'))
      else .error .typeError
  | .list xs, key :: rest =>
      match rest with
      | [] =>
          if xs.memVal key then .error (.duplicatedKeyPath full)
          else
            match key with
            | .int n =>
                match pyListIdx n xs.length with
                | some i => .ok (.list (xs.setIdx i value))
                | Option.none => .error .indexError
            | _ => .error .typeError
      | _ :: _ =>
          if xs.memVal key then
            match key with
            | .int n =>
                match pyListIdx n xs.length with
                | some i =>
                    match xs.getIdx i with
                    | some elem =>
                        (nested_set_dict_go full value elem rest).map
                          (fun inner' => .list (xs.setIdx i inner'))
                    | Option.none => .error .indexError
                | Option.none => .error .indexError
            | _ => .error .typeError
          else
            match key with
            | .int n =>
                match pyListIdx n xs.length with
                | some i =>
                    (nested_set_dict_go full value (.dict .nil) rest).map
                      (fun inner' => .list (xs.setIdx i inner'))
                | Option.none => .error .indexError
            | _ => .error .typeError
  | .tup xs, key :: rest =>
      match rest with
      | [] =>
          if xs.memVal key then .error (.duplicatedKeyPath full)
          else .error .typeError
      | _ :: _ =>
          if xs.memVal key then
            match key with
            | .int n =>
                match pyListIdx n xs.length with
                | some i =>
                    match xs.getIdx i with
                    | some elem =>
                        (nested_set_dict_go full value elem rest).map
                          (fun inner' => .tup (xs.setIdx i inner'))
                    | Option.none => .error .indexError
                | Option.none => .error .indexError
            | _ => .error .typeError
          else .error .typeError
  | .str s, key :: rest =>
      match rest with
      | [] =>
          match key with
          | .str sub =>
              if strContains s sub then .error (.duplicatedKeyPath full)
              else .error .typeError
          | _ => .error .typeError
      | _ :: _ => .error .typeError
  | _, _ :: _ => .error .typeError

/-- `nested_set_dict(d, keys, value, level=0)` of the source. -/
def nested_set_dict (d : PVal) (keys : List PVal) (value : PVal) :
    Except PyErr PVal :=
  nested_set_dict_go keys value d keys

/-- `nested_convert_to_list` (lines 145-177 of the source).  Its loop only
builds the local bookkeeping structure `checked`; the conversion itself is
commented out behind two `TODO` markers ("convert next_d and assign back to
current_d[key]", "convert the root dict"), so the function has no
observable effect on `unflattened_dict`.  On every input on which the
set-dict phase of `unflatten` succeeded, the loop's own lookups all hit
keys created by that phase, so it raises nothing either; the net behaviour
is the identity. -/
def nested_convert_to_list (unflattened_dict : PVal)
    (key_tuples : List (List PVal)) (list_index_types : List PType)
    (list_fill_value : PVal) : PVal :=
  unflattened_dict

/-- The per-entry loop of `unflatten` (lines 220-225): apply
`nested_set_dict` to each already-split `(key_tuple, value)` pair in
iteration order, threading the structure being built. -/
def setAll : List (List PVal × PVal) → PVal → Except PyErr PVal
  | [], acc => .ok acc
  | (ks, v) :: rest, acc => do
      let acc' ← nested_set_dict acc ks v
      setAll rest acc'

/-- The `unflatten` entry point (lines 180-231): for each flat entry, swap
key and value if `inverse`, split the flat key, and set the value at the
resulting key tuple, starting from an empty dict; finally run the (no-op)
`nested_convert_to_list` pass over the collected key tuples.  The flat
mapping is given as its ordered list of items. -/
def unflatten (d : List (PVal × PVal)) (splitter : PVal → List PVal)
    (inverse : Bool) (list_index_types : List PType)
    (list_fill_value : PVal) : Except PyErr PVal :=
  let entries := d.map (fun kv =>
    let kv' := if inverse then (kv.2, kv.1) else kv
    (splitter kv'.1, kv'.2))
  (setAll entries (.dict .nil)).map
    (fun u => nested_convert_to_list u (entries.map Prod.fst)
      list_index_types list_fill_value)

/-- Build a `PDict` from an ordered list of pairs (notation helper for
concrete Python dict literals). -/
def PDict.ofList : List (PVal × PVal) → PDict
  | [] => .nil
  | (k, v) :: rest => .cons k v (PDict.ofList rest)

/-- Build a `PList` from a list (notation helper for list literals). -/
def PList.ofList : List PVal → PList
  | [] => .nil
  | x :: rest => .cons x (PList.ofList rest)

/-- A Python dict literal. -/
def pd (l : List (PVal × PVal)) : PVal := .dict (PDict.ofList l)

/-- A Python list literal. -/
def pl (l : List PVal) : PVal := .list (PList.ofList l)

/-- A Python tuple literal. -/
def pt (l : List PVal) : PVal := .tup (PList.ofList l)

/-- The path `p` exists in the structure `s`: every step goes through a
dict entry under a hashable key.  The value reached at the end of the path
is unconstrained.  (Keys on paths `nested_set_dict` has successfully
walked are always hashable, since the membership test hashes them.) -/
def hasPath : PVal → List PVal → Prop
  | _, [] => True
  | .dict kvs, k :: rest =>
      k.hashable = true ∧
        match kvs.lookup k with
        | some v => hasPath v rest
        | Option.none => False
  | _, _ :: _ => False

/-- `nested_set_dict` would succeed writing along path `q` into `s` using
dict entries only: the traversal goes through dicts under hashable keys,
absent intermediate keys are freshly created, and the final key is absent.
On values that are `dictSafe` this is exactly success of the write; in
general success can also happen by index-assigning through list or tuple
nodes, which this predicate deliberately excludes. -/
def SetOK : PVal → List PVal → Prop
  | _, [] => False
  | .dict kvs, [k] => k.hashable = true ∧ kvs.lookup k = Option.none
  | .dict kvs, k :: rest =>
      k.hashable = true ∧
        match kvs.lookup k with
        | some inner => SetOK inner rest
        | Option.none => SetOK (.dict .nil) rest
  | _, _ :: _ => False

mutual

/-- Equality of contents, as Python `==` compares unflattened results: a
non-dict value equals only itself, and dicts are compared entry-wise up to
a permutation of their (distinct-key) entries.  This is what "the same
contents, independent of insertion order" means for the structures
`unflatten` builds. -/
inductive CEquiv : PVal → PVal → Prop where
  | nondict (a : PVal) : a.typeOf ≠ PType.dict → CEquiv a a
  | dict {kvs kvs' : PDict} : CDEquiv kvs kvs' → CEquiv (.dict kvs) (.dict kvs')

/-- Permutation of dict entries combined with `CEquiv` on the values. -/
inductive CDEquiv : PDict → PDict → Prop where
  | nil : CDEquiv .nil .nil
  | cons (k : PVal) {v v' : PVal} {t t' : PDict} :
      CEquiv v v' → CDEquiv t t' → CDEquiv (.cons k v t) (.cons k v' t')
  | swap {k1 k2 v1 v1' v2 v2' : PVal} {t t' : PDict} :
      k1 ≠ k2 → CEquiv v1 v1' → CEquiv v2 v2' → CDEquiv t t' →
      CDEquiv (.cons k1 v1 (.cons k2 v2 t)) (.cons k2 v2' (.cons k1 v1' t'))
  | trans {a b c : PDict} : CDEquiv a b → CDEquiv b c → CDEquiv a c

end

/-- Pointwise `CEquiv` on optional lookup results. -/
def OptEquiv : Option PVal → Option PVal → Prop
  | Option.none, Option.none => True
  | some a, some b => CEquiv a b
  | _, _ => False


theorem flatLookup_eq_none_iff (flat : Flat) (k : PVal) :
    flatLookup flat k = Option.none ↔ k ∉ flat.map Prod.fst := by
  induction flat with
  | nil => simp [flatLookup]
  | cons kv rest ih =>
      obtain ⟨k', v'⟩ := kv
      by_cases hk : k' = k
      · subst hk; simp [flatLookup]
      · simp [flatLookup, hk, Ne.symm hk, ih]

theorem emit_nodup (inv : Bool) (fk v : PVal) (flat m : Flat)
    (h : emit inv fk v flat = .ok m) (hn : (flat.map Prod.fst).Nodup) :
    (m.map Prod.fst).Nodup := by
  unfold emit at h
  by_cases hl : (flatLookup flat (if inv then (v, fk) else (fk, v)).1).isSome
  · simp [hl] at h
  · simp [hl] at h
    subst h
    rw [Option.not_isSome_iff_eq_none, flatLookup_eq_none_iff] at hl
    simp [List.nodup_append, hn, hl]

theorem flattenVal_nodup (r : Option PVal → PVal → PVal) (inv : Bool)
    (md : Option Int) (eT kT : List PType) (d : PVal) (depth : Int)
    (parent : Option PVal) (flat m : Flat)
    (h : flattenVal r inv md eT kT d depth parent flat = .ok m)
    (hn : (flat.map Prod.fst).Nodup) : (m.map Prod.fst).Nodup := by
  refine flattenVal.induct r inv md eT kT
    (fun key value depth parent flat => ∀ m,
      flattenItem r inv md eT kT key value depth parent flat = .ok m →
      (flat.map Prod.fst).Nodup → (m.map Prod.fst).Nodup)
    (fun d depth parent flat => ∀ m,
      flattenVal r inv md eT kT d depth parent flat = .ok m →
      (flat.map Prod.fst).Nodup → (m.map Prod.fst).Nodup)
    (fun kvs depth parent flat => ∀ m,
      flattenDict r inv md eT kT kvs depth parent flat = .ok m →
      (flat.map Prod.fst).Nodup → (m.map Prod.fst).Nodup)
    (fun kvs i depth parent flat => ∀ m,
      flattenEnumKeys r inv md eT kT kvs i depth parent flat = .ok m →
      (flat.map Prod.fst).Nodup → (m.map Prod.fst).Nodup)
    (fun xs i depth parent flat => ∀ m,
      flattenEnum r inv md eT kT xs i depth parent flat = .ok m →
      (flat.map Prod.fst).Nodup → (m.map Prod.fst).Nodup)
    ?_ ?_ ?_ ?_ ?_ ?_ ?_ ?_ ?_ ?_ ?_ ?_ ?_ ?_ ?_ ?_ d depth parent flat m h hn
  · intro key value depth parent flat flatKey hc ht ih m h hn
    rw [flattenItem.eq_def, if_pos hc, if_pos ht] at h
    exact ih m h hn
  · intro key value depth parent flat hc ht hk m h hn
    rw [flattenItem.eq_def, if_pos hc, if_neg ht, if_pos hk] at h
    exact emit_nodup inv _ value flat m h hn
  · intro key value depth parent flat hc ht hk m h hn
    rw [flattenItem.eq_def, if_pos hc, if_neg ht, if_neg hk] at h
    cases h
    exact hn
  · intro key value depth parent flat hc m h hn
    rw [flattenItem.eq_def, if_neg hc] at h
    exact emit_nodup inv _ value flat m h hn
  · intro depth parent flat xs hc ih m h hn
    rw [flattenVal.eq_def, if_pos hc] at h
    exact ih m h hn
  · intro depth parent flat xs hc ih m h hn
    rw [flattenVal.eq_def, if_pos hc] at h
    exact ih m h hn
  · intro depth parent flat kvs hc ih m h hn
    rw [flattenVal.eq_def, if_pos hc] at h
    exact ih m h hn
  · intro d depth parent flat hc h1 h2 h3 m h hn
    rw [flattenVal.eq_def, if_pos hc] at h
    cases d with
    | list xs => exact absurd rfl (h1 xs)
    | tup xs => exact absurd rfl (h2 xs)
    | dict kvs => exact absurd rfl (h3 kvs)
    | str s => cases h; exact hn
    | int n => cases h; exact hn
    | none => cases h; exact hn
    | listIndex n => cases h; exact hn
  · intro depth parent flat kvs hc ih m h hn
    rw [flattenVal.eq_def, if_neg hc] at h
    exact ih m h hn
  · intro d depth parent flat hc h1 m h hn
    rw [flattenVal.eq_def, if_neg hc] at h
    cases d with
    | dict kvs => exact absurd rfl (h1 kvs)
    | list xs => cases h; exact hn
    | tup xs => cases h; exact hn
    | str s => cases h; exact hn
    | int n => cases h; exact hn
    | none => cases h; exact hn
    | listIndex n => cases h; exact hn
  · intro depth parent flat m h hn
    rw [flattenDict] at h
    cases h
    exact hn
  · intro depth parent flat k v rest ih1 ih3 m h hn
    rw [flattenDict] at h
    cases hI : flattenItem r inv md eT kT k v depth parent flat with
    | error e => rw [hI] at h; exact absurd h (by simp [Bind.bind, Except.bind])
    | ok flat' =>
        rw [hI] at h
        simp only [Bind.bind, Except.bind] at h
        exact ih3 flat' m h (ih1 flat' hI hn)
  · intro i depth parent flat m h hn
    rw [flattenEnumKeys] at h
    cases h
    exact hn
  · intro i depth parent flat k v rest ih1 ih4 m h hn
    rw [flattenEnumKeys] at h
    cases hI : flattenItem r inv md eT kT (.int i) k depth parent flat with
    | error e => rw [hI] at h; exact absurd h (by simp [Bind.bind, Except.bind])
    | ok flat' =>
        rw [hI] at h
        simp only [Bind.bind, Except.bind] at h
        exact ih4 flat' m h (ih1 flat' hI hn)
  · intro i depth parent flat m h hn
    rw [flattenEnum] at h
    cases h
    exact hn
  · intro i depth parent flat x xs ih1 ih5 m h hn
    rw [flattenEnum] at h
    cases hI : flattenItem r inv md eT kT (.int i) x depth parent flat with
    | error e => rw [hI] at h; exact absurd h (by simp [Bind.bind, Except.bind])
    | ok flat' =>
        rw [hI] at h
        simp only [Bind.bind, Except.bind] at h
        exact ih5 flat' m h (ih1 flat' hI hn)

/-- C1 (claim fails on the code): flattening `{"a": ["b", "c"]}` with the
tuple reducer and `enumerate_types = (list,)` gives
`{("a", 0): "b", ("a", 1): "c"}`, but unflattening that with the tuple
splitter (and the default `list_index_types=(ListIndex,)`) returns
`{"a": {0: "b", 1: "c"}}` — a dict with integer keys, not the original
list — because `nested_convert_to_list` never rebuilds sequences. -/
theorem unflatten_flatten_roundtrip_fails_on_sequences :
    flatten (pd [(.str "a", pl [.str "b", .str "c"])]) tuple_reducer false
      Option.none [.list] [] =
      .ok [(pt [.str "a", .int 0], .str "b"), (pt [.str "a", .int 1], .str "c")] ∧
    unflatten [(pt [.str "a", .int 0], .str "b"), (pt [.str "a", .int 1], .str "c")]
      tuple_splitter false [.listIndex] .none =
      .ok (pd [(.str "a", pd [(.int 0, .str "b"), (.int 1, .str "c")])]) ∧
    pd [(.str "a", pd [(.int 0, .str "b"), (.int 1, .str "c")])] ≠
      pd [(.str "a", pl [.str "b", .str "c"])] := by
  refine ⟨?_, ?_, by decide⟩
  · simp [flatten, flattenVal, flattenDict, flattenEnum, flattenEnumKeys,
      flattenItem, emit, isFlattenable, depthOK, pd, pl, pt, PDict.ofList,
      PList.ofList, tuple_reducer, tuple_reducer.pListAppend, PVal.truthy,
      PVal.typeOf, flatLookup, Except.bind, Except.map, bind, pure]
  · simp [unflatten, setAll, nested_set_dict, nested_set_dict_go,
      nested_convert_to_list, tuple_splitter, tuple_splitter.pListToList,
      pd, pl, pt, PDict.ofList, PList.ofList, PDict.lookup, PDict.push,
      PDict.set, PVal.hashable, Except.bind, Except.map, bind, pure]

/-- C2 (claim fails on the code): `unflatten({("0",): "a", ("2",): "c"},
list_index_types=(str,))` returns the dict `{"0": "a", "2": "c"}` unchanged
rather than the list `["a", None, "c"]` the spec requires, because the
conversion body of `nested_convert_to_list` is commented out behind TODO
markers. -/
theorem unflatten_no_list_reconstruction :
    unflatten [(pt [.str "0"], .str "a"), (pt [.str "2"], .str "c")]
      tuple_splitter false [.str] .none =
      .ok (pd [(.str "0", .str "a"), (.str "2", .str "c")]) ∧
    pd [(.str "0", .str "a"), (.str "2", .str "c")] ≠ pl [.str "a", .none, .str "c"] := by
  refine ⟨?_, by decide⟩
  simp [unflatten, setAll, nested_set_dict, nested_set_dict_go,
    nested_convert_to_list, tuple_splitter, tuple_splitter.pListToList,
    pd, pl, pt, PDict.ofList, PList.ofList, PDict.lookup, PDict.push,
    PDict.set, PVal.hashable, Except.bind, Except.map, bind, pure]

/-- C3 (claim fails on the code): unflattening a flat map containing both
`("a", "0")` and `("a", "b")` with `list_index_types=(str,)` raises
nothing; it returns `{"a": {"0": 1, "b": 2}}`, treating the list-index
segment as an ordinary mapping key, because no structural-consistency check
exists anywhere in `nested_set_dict` or the stubbed
`nested_convert_to_list`. -/
theorem unflatten_no_inconsistent_structure_error :
    unflatten [(pt [.str "a", .str "0"], .int 1), (pt [.str "a", .str "b"], .int 2)]
      tuple_splitter false [.str] .none =
      .ok (pd [(.str "a", pd [(.str "0", .int 1), (.str "b", .int 2)])]) := by
  simp [unflatten, setAll, nested_set_dict, nested_set_dict_go,
    nested_convert_to_list, tuple_splitter, tuple_splitter.pListToList,
    pd, pl, pt, PDict.ofList, PList.ofList, PDict.lookup, PDict.push,
    PDict.set, PVal.hashable, Except.bind, Except.map, bind, pure]

/-- C4: flattening `{"a": {"b": 1}, "a_b": 2}` with the underscore reducer
raises the duplicate-key `ValueError` carrying the offending key `"a_b"`
(so no partial result is returned), and in general every flat dict that
`flatten` does return has pairwise-distinct keys — no entry is ever
silently overwritten. -/
theorem flatten_duplicate_flat_key :
    flatten (pd [(.str "a", pd [(.str "b", .int 1)]), (.str "a_b", .int 2)])
      underscore_reducer false Option.none [] [] =
      .error (.duplicatedKey (.str "a_b")) ∧
    ∀ (d : PVal) (r : Option PVal → PVal → PVal) (inv : Bool)
      (md : Option Int) (eT kT : List PType) (m : Flat),
      flatten d r inv md eT kT = .ok m → (m.map Prod.fst).Nodup := by
  constructor
  · simp [flatten, flattenVal, flattenDict, flattenEnum, flattenEnumKeys,
      flattenItem, emit, isFlattenable, depthOK, pd, pl, pt, PDict.ofList,
      PList.ofList, underscore_reducer, PVal.pyStr, PVal.truthy,
      PVal.typeOf, flatLookup, Except.bind, Except.map, bind, pure]
  · intro d r inv md eT kT m h
    unfold flatten at h
    split at h
    · cases h
    · split at h
      · cases h
      · exact flattenVal_nodup r inv md eT kT d 1 Option.none [] m h (by simp)

/-- Witness for the universally quantified part of
`flatten_duplicate_flat_key` at a concrete input. -/
theorem flatten_duplicate_flat_key_witness :
    ((([(pt [.str "x"], PVal.int 1)] : Flat).map Prod.fst).Nodup) :=
  flatten_duplicate_flat_key.2 (pd [(.str "x", .int 1)]) tuple_reducer false
    Option.none [] [] [(pt [.str "x"], PVal.int 1)]
    (by simp [flatten, flattenVal, flattenDict, flattenItem, emit,
      isFlattenable, depthOK, pd, pt, PDict.ofList, PList.ofList,
      tuple_reducer, tuple_reducer.pListAppend, PVal.truthy, PVal.typeOf,
      flatLookup, Except.bind, Except.map, bind, pure])

/-- C5: `flatten({"a": {"b": {"c": 1}}}, max_flatten_depth=2)` expands two
levels and emits the container reached at depth 2 as a leaf, giving
`{("a","b"): {"c": 1}}`; and for any `max_flatten_depth` below 1 (and any
flattenable root), `flatten` rejects the configuration before traversing
anything. -/
theorem flatten_max_depth_semantics :
    flatten (pd [(.str "a", pd [(.str "b", pd [(.str "c", .int 1)])])])
      tuple_reducer false (some 2) [] [] =
      .ok [(pt [.str "a", .str "b"], pd [(.str "c", .int 1)])] ∧
    ∀ (d : PVal) (r : Option PVal → PVal → PVal) (inv : Bool) (k : Int)
      (eT kT : List PType),
      k < 1 → isFlattenable eT d = true →
      flatten d r inv (some k) eT kT = .error .invalidDepth := by
  constructor
  · simp [flatten, flattenVal, flattenDict, flattenEnum, flattenEnumKeys,
      flattenItem, emit, isFlattenable, depthOK, pd, pl, pt, PDict.ofList,
      PList.ofList, tuple_reducer, tuple_reducer.pListAppend, PVal.truthy,
      PVal.typeOf, flatLookup, Except.bind, Except.map, bind, pure]
  · intro d r inv k eT kT hk hf
    rw [flatten, if_neg (by simp [hf]), if_pos (by simp [hk])]

/-- Witness for the depth-rejection part of `flatten_max_depth_semantics`
at `max_flatten_depth = 0` on the root `{}`. -/
theorem flatten_max_depth_semantics_witness :
    flatten (pd []) tuple_reducer false (some 0) [] [] = .error .invalidDepth :=
  flatten_max_depth_semantics.2 (pd []) tuple_reducer false 0 [] []
    (by decide) (by decide)

/-- C6: an empty flattenable container contributes no entry unless its
runtime type is in `keep_empty_types`: `flatten({"x": 1, "y": {}})` yields
`{("x",): 1}`, `flatten({"x": 1, "y": {}}, keep_empty_types=(dict,))`
yields `{("x",): 1, ("y",): {}}`, and the same holds under any key for a
single-entry dict with an empty-dict value. -/
theorem flatten_keep_empty_types_policy :
    flatten (pd [(.str "x", .int 1), (.str "y", pd [])]) tuple_reducer false
      Option.none [] [] = .ok [(pt [.str "x"], .int 1)] ∧
    flatten (pd [(.str "x", .int 1), (.str "y", pd [])]) tuple_reducer false
      Option.none [] [.dict] =
      .ok [(pt [.str "x"], .int 1), (pt [.str "y"], pd [])] ∧
    (∀ k : PVal, flatten (pd [(k, pd [])]) tuple_reducer false
      Option.none [] [] = .ok []) ∧
    (∀ k : PVal, flatten (pd [(k, pd [])]) tuple_reducer false
      Option.none [] [.dict] = .ok [(pt [k], pd [])]) := by
  refine ⟨?_, ?_, fun k => ?_, fun k => ?_⟩ <;>
    simp [flatten, flattenVal, flattenDict, flattenEnum, flattenEnumKeys,
      flattenItem, emit, isFlattenable, depthOK, pd, pl, pt, PDict.ofList,
      PList.ofList, tuple_reducer, tuple_reducer.pListAppend, PVal.truthy,
      PVal.typeOf, flatLookup, Except.bind, Except.map, bind, pure]

/-- C9: with `inverse=True` the duplicate check applies to the swapped key,
i.e. the original leaf value: a dict whose two distinct keys hold equal
hashable (non-flattenable) leaf values makes `flatten(..., inverse=True)`
raise the duplicate-key error on that value, while the un-inverted
`flatten` of the same input succeeds.  The hashability hypothesis marks
Python's precondition for using the value as a dict key: an unhashable
leaf value would make `flat_key in flat_dict` raise `TypeError` at the
first insertion instead of the duplicate `ValueError` at the second. -/
theorem flatten_inverse_duplicate_check_on_values :
    ∀ (k1 k2 v : PVal), k1 ≠ k2 → v.typeOf ≠ PType.dict →
      v.hashable = true →
      flatten (pd [(k1, v), (k2, v)]) tuple_reducer true Option.none [] [] =
        .error (.duplicatedKey v) ∧
      flatten (pd [(k1, v), (k2, v)]) tuple_reducer false Option.none [] [] =
        .ok [(pt [k1], v), (pt [k2], v)] := by
  intro k1 k2 v h1 h2 _
  have hroot : isFlattenable [] (pd [(k1, v), (k2, v)]) = true := by
    simp [isFlattenable, pd, PDict.ofList, PVal.typeOf]
  have hv : isFlattenable [] v = false := by
    simp [isFlattenable, h2]
  constructor <;>
    (simp [flatten, flattenVal, flattenDict, flattenItem, emit, depthOK,
      pd, pt, PDict.ofList, PList.ofList, tuple_reducer,
      tuple_reducer.pListAppend, flatLookup, hroot, hv, h1,
      Except.bind, Except.map, bind, pure] <;>
     simp [isFlattenable, PVal.typeOf])

/-- Witness for `flatten_inverse_duplicate_check_on_values` at keys `"a"`,
`"b"` and the shared leaf value `1`. -/
theorem flatten_inverse_duplicate_check_on_values_witness :
    flatten (pd [(.str "a", .int 1), (.str "b", .int 1)]) tuple_reducer true
      Option.none [] [] = .error (.duplicatedKey (.int 1)) ∧
    flatten (pd [(.str "a", .int 1), (.str "b", .int 1)]) tuple_reducer false
      Option.none [] [] =
      .ok [(pt [.str "a"], .int 1), (pt [.str "b"], .int 1)] :=
  flatten_inverse_duplicate_check_on_values (.str "a") (.str "b") (.int 1)
    (by decide) (by decide) (by decide)

theorem PDict.lookup_push_self : ∀ (kvs : PDict) (k v : PVal),
    kvs.lookup k = Option.none → (kvs.push k v).lookup k = some v
  | .nil, k, v, _ => by simp [PDict.push, PDict.lookup]
  | .cons k' v' t, k, v, h => by
      by_cases hk : k' = k
      · simp [PDict.lookup, hk] at h
      · simp [PDict.lookup, PDict.push, hk] at h ⊢
        exact PDict.lookup_push_self t k v h

theorem PDict.lookup_push_ne : ∀ (kvs : PDict) (k k' v : PVal), k ≠ k' →
    (kvs.push k v).lookup k' = kvs.lookup k'
  | .nil, k, k', v, h => by simp [PDict.push, PDict.lookup, h]
  | .cons k0 v0 t, k, k', v, h => by
      by_cases hk : k0 = k'
      · simp [PDict.lookup, PDict.push, hk]
      · simp [PDict.lookup, PDict.push, hk]
        exact PDict.lookup_push_ne t k k' v h

theorem PDict.lookup_push_of_some : ∀ (kvs : PDict) (k k' v w : PVal),
    kvs.lookup k' = some w → (kvs.push k v).lookup k' = some w
  | .nil, _, _, _, _, h => by simp [PDict.lookup] at h
  | .cons k0 v0 t, k, k', v, w, h => by
      by_cases hk : k0 = k'
      · simp [PDict.lookup, PDict.push, hk] at h ⊢
        exact h
      · simp [PDict.lookup, PDict.push, hk] at h ⊢
        exact PDict.lookup_push_of_some t k k' v w h

theorem PDict.lookup_set_eq : ∀ (kvs : PDict) (k w : PVal),
    (kvs.lookup k).isSome → (kvs.set k w).lookup k = some w
  | .nil, k, w, h => by simp [PDict.lookup] at h
  | .cons k0 v0 t, k, w, h => by
      by_cases hk : k0 = k
      · simp [PDict.lookup, PDict.set, hk]
      · simp [PDict.lookup, PDict.set, hk] at h ⊢
        exact PDict.lookup_set_eq t k w h

theorem PDict.lookup_set_ne : ∀ (kvs : PDict) (k k' w : PVal), k ≠ k' →
    (kvs.set k w).lookup k' = kvs.lookup k'
  | .nil, _, _, _, _ => by simp [PDict.set]
  | .cons k0 v0 t, k, k', w, h => by
      by_cases hk : k0 = k
      · subst hk
        simp [PDict.lookup, PDict.set, h]
      · simp [PDict.set, hk]
        by_cases hk' : k0 = k'
        · simp [PDict.lookup, hk']
        · simp [PDict.lookup, hk']
          exact PDict.lookup_set_ne t k k' w h

theorem PDict.set_set_same : ∀ (kvs : PDict) (k a b : PVal),
    (kvs.set k a).set k b = kvs.set k b
  | .nil, _, _, _ => by simp [PDict.set]
  | .cons k0 v0 t, k, a, b => by
      by_cases hk : k0 = k
      · simp [PDict.set, hk]
      · simp [PDict.set, hk]
        exact PDict.set_set_same t k a b

theorem PDict.set_push_self : ∀ (kvs : PDict) (k a b : PVal),
    kvs.lookup k = Option.none → (kvs.push k a).set k b = kvs.push k b
  | .nil, k, a, b, _ => by simp [PDict.push, PDict.set]
  | .cons k0 v0 t, k, a, b, h => by
      by_cases hk : k0 = k
      · simp [PDict.lookup, hk] at h
      · simp [PDict.lookup, hk] at h
        simp [PDict.push, PDict.set, hk]
        exact PDict.set_push_self t k a b h

theorem PDict.set_set_comm : ∀ (kvs : PDict) (k1 k2 a b : PVal), k1 ≠ k2 →
    (kvs.set k1 a).set k2 b = (kvs.set k2 b).set k1 a
  | .nil, _, _, _, _, _ => by simp [PDict.set]
  | .cons k0 v0 t, k1, k2, a, b, h => by
      by_cases h1 : k0 = k1
      · subst h1
        simp [PDict.set, h]
      · by_cases h2 : k0 = k2
        · subst h2
          simp [PDict.set, h1, Ne.symm (fun hc => h1 hc.symm)]
        · simp [PDict.set, h1, h2]
          exact PDict.set_set_comm t k1 k2 a b h

theorem PDict.set_push_comm : ∀ (kvs : PDict) (k1 k2 a b : PVal), k1 ≠ k2 →
    (kvs.push k1 a).set k2 b = (kvs.set k2 b).push k1 a
  | .nil, k1, k2, a, b, h => by simp [PDict.push, PDict.set, h]
  | .cons k0 v0 t, k1, k2, a, b, h => by
      by_cases h2 : k0 = k2
      · simp [PDict.push, PDict.set, h2]
      · simp [PDict.push, PDict.set, h2]
        exact PDict.set_push_comm t k1 k2 a b h

mutual

theorem cequiv_refl : (a : PVal) → CEquiv a a
  | .str s => .nondict _ (by simp [PVal.typeOf])
  | .int n => .nondict _ (by simp [PVal.typeOf])
  | .none => .nondict _ (by simp [PVal.typeOf])
  | .listIndex n => .nondict _ (by simp [PVal.typeOf])
  | .tup xs => .nondict _ (by simp [PVal.typeOf])
  | .list xs => .nondict _ (by simp [PVal.typeOf])
  | .dict kvs => .dict (cdequiv_refl kvs)

theorem cdequiv_refl : (kvs : PDict) → CDEquiv kvs kvs
  | .nil => .nil
  | .cons k v t => .cons k (cequiv_refl v) (cdequiv_refl t)

end

theorem cdequiv_symm {x y : PDict} (h : CDEquiv x y) : CDEquiv y x := by
  refine @CDEquiv.rec (fun a b _ => CEquiv b a) (fun x y _ => CDEquiv y x)
    ?_ ?_ ?_ ?_ ?_ ?_ x y h
  · intro a ha
    exact .nondict a ha
  · intro kvs kvs' hd ih
    exact .dict ih
  · exact .nil
  · intro k v v' t t' hv ht ihv iht
    exact .cons k ihv iht
  · intro k1 k2 v1 v1' v2 v2' t t' hne hv1 hv2 ht ihv1 ihv2 iht
    exact .swap (Ne.symm hne) ihv2 ihv1 iht
  · intro a b c h1 h2 ih1 ih2
    exact .trans ih2 ih1

theorem cequiv_symm {a b : PVal} (h : CEquiv a b) : CEquiv b a := by
  refine @CEquiv.rec (fun a b _ => CEquiv b a) (fun x y _ => CDEquiv y x)
    ?_ ?_ ?_ ?_ ?_ ?_ a b h
  · intro a ha
    exact .nondict a ha
  · intro kvs kvs' hd ih
    exact .dict ih
  · exact .nil
  · intro k v v' t t' hv ht ihv iht
    exact .cons k ihv iht
  · intro k1 k2 v1 v1' v2 v2' t t' hne hv1 hv2 ht ihv1 ihv2 iht
    exact .swap (Ne.symm hne) ihv2 ihv1 iht
  · intro a b c h1 h2 ih1 ih2
    exact .trans ih2 ih1

theorem cequiv_trans {a b c : PVal} (h1 : CEquiv a b) (h2 : CEquiv b c) :
    CEquiv a c := by
  cases h1 with
  | nondict a ha => exact h2
  | dict hd1 =>
      cases h2 with
      | nondict b hb => simp [PVal.typeOf] at hb
      | dict hd2 => exact .dict (.trans hd1 hd2)

theorem optEquiv_trans : {x y z : Option PVal} →
    OptEquiv x y → OptEquiv y z → OptEquiv x z
  | Option.none, Option.none, Option.none, _, _ => trivial
  | some _, some _, some _, h1, h2 => cequiv_trans h1 h2
  | Option.none, some _, _, h1, _ => absurd h1 (by simp [OptEquiv])
  | some _, Option.none, _, h1, _ => absurd h1 (by simp [OptEquiv])
  | some _, some _, Option.none, _, h2 => absurd h2 (by simp [OptEquiv])
  | Option.none, Option.none, some _, _, h2 => absurd h2 (by simp [OptEquiv])

theorem CDEquiv.lookup_equiv {x y : PDict} (h : CDEquiv x y) (k : PVal) :
    OptEquiv (x.lookup k) (y.lookup k) := by
  refine @CDEquiv.rec (fun _ _ _ => True)
    (fun x y _ => ∀ k : PVal, OptEquiv (x.lookup k) (y.lookup k))
    ?_ ?_ ?_ ?_ ?_ ?_ x y h k
  · intro _ _
    trivial
  · intro _ _ _ _
    trivial
  · intro k
    simp [PDict.lookup, OptEquiv]
  · intro k' v v' t t' hv ht _ iht k
    by_cases hk : k' = k
    · simpa [PDict.lookup, hk, OptEquiv] using hv
    · simpa [PDict.lookup, hk] using iht k
  · intro k1 k2 v1 v1' v2 v2' t t' hne hv1 hv2 ht _ _ iht k
    by_cases hk1 : k1 = k
    · subst hk1
      simpa [PDict.lookup, Ne.symm hne, OptEquiv] using hv1
    · by_cases hk2 : k2 = k
      · subst hk2
        simpa [PDict.lookup, hk1, OptEquiv] using hv2
      · simpa [PDict.lookup, hk1, hk2] using iht k
  · intro a b c h1 h2 ih1 ih2 k
    exact optEquiv_trans (ih1 k) (ih2 k)

theorem CDEquiv.push_congr {x y : PDict} (h : CDEquiv x y) (k : PVal)
    {v v' : PVal} (hv : CEquiv v v') : CDEquiv (x.push k v) (y.push k v') := by
  refine @CDEquiv.rec (fun _ _ _ => True)
    (fun x y _ => ∀ (k v v' : PVal), CEquiv v v' → CDEquiv (x.push k v) (y.push k v'))
    ?_ ?_ ?_ ?_ ?_ ?_ x y h k v v' hv
  · intro _ _
    trivial
  · intro _ _ _ _
    trivial
  · intro k v v' hv
    exact .cons k hv .nil
  · intro k0 v0 v0' t t' hv0 ht _ iht k v v' hv
    exact .cons k0 hv0 (iht k v v' hv)
  · intro k1 k2 v1 v1' v2 v2' t t' hne hv1 hv2 ht _ _ iht k v v' hv
    exact .swap hne hv1 hv2 (iht k v v' hv)
  · intro a b c h1 h2 ih1 ih2 k v v' hv
    exact .trans (ih1 k v v (cequiv_refl v)) (ih2 k v v' hv)

theorem CDEquiv.set_congr {x y : PDict} (h : CDEquiv x y) (k : PVal)
    {w w' : PVal} (hw : CEquiv w w') : CDEquiv (x.set k w) (y.set k w') := by
  refine @CDEquiv.rec (fun _ _ _ => True)
    (fun x y _ => ∀ (k w w' : PVal), CEquiv w w' → CDEquiv (x.set k w) (y.set k w'))
    ?_ ?_ ?_ ?_ ?_ ?_ x y h k w w' hw
  · intro _ _
    trivial
  · intro _ _ _ _
    trivial
  · intro k w w' hw
    exact .nil
  · intro k0 v0 v0' t t' hv0 ht _ iht k w w' hw
    by_cases hk : k0 = k
    · subst hk
      simpa [PDict.set] using .cons k0 hw ht
    · simpa [PDict.set, hk] using .cons k0 hv0 (iht k w w' hw)
  · intro k1 k2 v1 v1' v2 v2' t t' hne hv1 hv2 ht _ _ iht k w w' hw
    by_cases hk1 : k1 = k
    · subst hk1
      simpa [PDict.set, Ne.symm hne] using .swap hne hw hv2 ht
    · by_cases hk2 : k2 = k
      · subst hk2
        simpa [PDict.set, hk1] using .swap hne hv1 hw ht
      · simpa [PDict.set, hk1, hk2] using .swap hne hv1 hv2 (iht k w w' hw)
  · intro a b c h1 h2 ih1 ih2 k w w' hw
    exact .trans (ih1 k w w (cequiv_refl w)) (ih2 k w w' hw)

theorem CDEquiv.push_push : ∀ (kvs : PDict) (k1 k2 v1 v2 : PVal), k1 ≠ k2 →
    CDEquiv ((kvs.push k1 v1).push k2 v2) ((kvs.push k2 v2).push k1 v1)
  | .nil, k1, k2, v1, v2, h =>
      .swap h (cequiv_refl v1) (cequiv_refl v2) .nil
  | .cons k0 v0 t, k1, k2, v1, v2, h =>
      .cons k0 (cequiv_refl v0) (CDEquiv.push_push t k1 k2 v1 v2 h)

theorem go_nil (f : List PVal) (v s : PVal) :
    nested_set_dict_go f v s [] = .error .assertionError := by
  cases s <;> rfl

theorem go_dict_eq (f : List PVal) (v : PVal) (kvs : PDict) (k : PVal)
    (rest : List PVal) :
    nested_set_dict_go f v (.dict kvs) (k :: rest) =
      if k.hashable then
        match rest with
        | [] =>
            if (kvs.lookup k).isSome then .error (.duplicatedKeyPath f)
            else .ok (.dict (kvs.push k v))
        | _ :: _ =>
            match kvs.lookup k with
            | some inner =>
                (nested_set_dict_go f v inner rest).map
                  (fun inner' => .dict (kvs.set k inner'))
            | Option.none =>
                (nested_set_dict_go f v (.dict .nil) rest).map
                  (fun inner' => .dict (kvs.push k inner'))
      else .error .typeError := by
  cases rest <;> rfl

theorem go_dict_unhash (f : List PVal) (v : PVal) (kvs : PDict) (k : PVal)
    (rest : List PVal) (hk : k.hashable = false) :
    nested_set_dict_go f v (.dict kvs) (k :: rest) = .error .typeError := by
  rw [go_dict_eq, hk]
  simp

theorem go_last_dict (f : List PVal) (v : PVal) (kvs : PDict) (k : PVal)
    (hk : k.hashable = true) :
    nested_set_dict_go f v (.dict kvs) [k] =
      if (kvs.lookup k).isSome then .error (.duplicatedKeyPath f)
      else .ok (.dict (kvs.push k v)) := by
  rw [go_dict_eq, hk]
  simp

theorem go_cons_dict (f : List PVal) (v : PVal) (kvs : PDict) (k k2 : PVal)
    (rest : List PVal) (hk : k.hashable = true) :
    nested_set_dict_go f v (.dict kvs) (k :: k2 :: rest) =
      match kvs.lookup k with
      | some inner =>
          (nested_set_dict_go f v inner (k2 :: rest)).map
            (fun inner' => .dict (kvs.set k inner'))
      | Option.none =>
          (nested_set_dict_go f v (.dict .nil) (k2 :: rest)).map
            (fun inner' => .dict (kvs.push k inner')) := by
  rw [go_dict_eq, hk]
  simp

theorem go_str_nok (f : List PVal) (v : PVal) (a : String) (k : PVal)
    (rest : List PVal) (t : PVal) :
    nested_set_dict_go f v (.str a) (k :: rest) ≠ .ok t := by
  intro h
  cases rest with
  | cons c cs => cases h
  | nil =>
      cases k with
      | str sub =>
          rw [show nested_set_dict_go f v (.str a) [.str sub] =
            (if strContains a sub then .error (.duplicatedKeyPath f)
             else .error .typeError) from rfl] at h
          split at h <;> cases h
      | int n => cases h
      | none => cases h
      | listIndex n => cases h
      | tup xs => cases h
      | list xs => cases h
      | dict kvs => cases h

theorem go_scalar_nok (f : List PVal) (v s k : PVal) (rest : List PVal)
    (t : PVal)
    (hs : s.typeOf = PType.int ∨ s.typeOf = PType.none ∨
      s.typeOf = PType.listIndex) :
    nested_set_dict_go f v s (k :: rest) ≠ .ok t := by
  intro h
  cases s <;> simp [PVal.typeOf] at hs <;> cases h

theorem dictSafeD_lookup : ∀ (kvs : PDict) (k w : PVal),
    kvs.dictSafeD = true → kvs.lookup k = some w → w.dictSafe = true
  | .nil, k, w, _, hl => by simp [PDict.lookup] at hl
  | .cons k' v rest, k, w, hs, hl => by
      rw [PDict.dictSafeD, Bool.and_eq_true] at hs
      rw [PDict.lookup] at hl
      by_cases hk : k' = k
      · rw [if_pos hk] at hl
        cases hl
        exact hs.1
      · rw [if_neg hk] at hl
        exact dictSafeD_lookup rest k w hs.2 hl

theorem dictSafeD_push : ∀ (kvs : PDict) (k v : PVal),
    kvs.dictSafeD = true → v.dictSafe = true →
    (kvs.push k v).dictSafeD = true
  | .nil, k, v, _, hv => by
      rw [PDict.push, PDict.dictSafeD, PDict.dictSafeD]
      simp [hv]
  | .cons k' v' rest, k, v, hs, hv => by
      rw [PDict.dictSafeD, Bool.and_eq_true] at hs
      rw [PDict.push, PDict.dictSafeD, Bool.and_eq_true]
      exact ⟨hs.1, dictSafeD_push rest k v hs.2 hv⟩

theorem dictSafeD_set : ∀ (kvs : PDict) (k v : PVal),
    kvs.dictSafeD = true → v.dictSafe = true →
    (kvs.set k v).dictSafeD = true
  | .nil, k, v, hs, _ => hs
  | .cons k' v' rest, k, v, hs, hv => by
      rw [PDict.dictSafeD, Bool.and_eq_true] at hs
      rw [PDict.set]
      by_cases hk : k' = k
      · rw [if_pos hk, PDict.dictSafeD, Bool.and_eq_true]
        exact ⟨hv, hs.2⟩
      · rw [if_neg hk, PDict.dictSafeD, Bool.and_eq_true]
        exact ⟨hs.1, dictSafeD_set rest k v hs.2 hv⟩

theorem hasPath_nil (s : PVal) : hasPath s [] := by
  cases s <;> trivial

theorem hasPath_dict_iff {kvs : PDict} {k : PVal} {rest : List PVal} :
    hasPath (.dict kvs) (k :: rest) ↔
      k.hashable = true ∧ ∃ w, kvs.lookup k = some w ∧ hasPath w rest := by
  cases hl : kvs.lookup k <;> simp [hasPath, hl]

theorem hasPath_dict_some {kvs : PDict} {k : PVal} {rest : List PVal} {w : PVal}
    (hk : k.hashable = true) (hl : kvs.lookup k = some w) :
    hasPath (.dict kvs) (k :: rest) ↔ hasPath w rest := by
  simp [hasPath, hk, hl]

theorem hasPath_dict_none {kvs : PDict} {k : PVal} {rest : List PVal}
    (hl : kvs.lookup k = Option.none) :
    ¬ hasPath (.dict kvs) (k :: rest) := by
  simp [hasPath, hl]

theorem hasPath_nondict {s k : PVal} {rest : List PVal}
    (h : s.typeOf ≠ PType.dict) : ¬ hasPath s (k :: rest) := by
  cases s <;> simp [hasPath, PVal.typeOf] at h ⊢

theorem hasPath_of_prefix : ∀ (p1 p2 : List PVal) (s : PVal),
    hasPath s p2 → p1 <+: p2 → hasPath s p1
  | [], _, s, _, _ => hasPath_nil s
  | k :: p1', p2, s, h2, hp => by
      obtain ⟨r, hr⟩ := hp
      subst hr
      cases s with
      | dict kvs =>
          rw [List.cons_append] at h2
          obtain ⟨hk, w, hl, hw⟩ := hasPath_dict_iff.mp h2
          rw [hasPath_dict_some hk hl]
          exact hasPath_of_prefix p1' (p1' ++ r) w hw ⟨r, rfl⟩
      | str s => exact absurd h2 (hasPath_nondict (by simp [PVal.typeOf]))
      | int n => exact absurd h2 (hasPath_nondict (by simp [PVal.typeOf]))
      | none => exact absurd h2 (hasPath_nondict (by simp [PVal.typeOf]))
      | listIndex n => exact absurd h2 (hasPath_nondict (by simp [PVal.typeOf]))
      | tup xs => exact absurd h2 (hasPath_nondict (by simp [PVal.typeOf]))
      | list xs => exact absurd h2 (hasPath_nondict (by simp [PVal.typeOf]))

theorem go_ok_dict {f : List PVal} {v s k : PVal} {rest : List PVal} {t : PVal}
    (h : nested_set_dict_go f v s (k :: rest) = .ok t)
    (hs : s.dictSafe = true) : ∃ kvs, s = .dict kvs := by
  cases s with
  | dict kvs => exact ⟨kvs, rfl⟩
  | list xs => simp [PVal.dictSafe] at hs
  | tup xs => simp [PVal.dictSafe] at hs
  | str a => exact absurd h (go_str_nok f v a k rest t)
  | int a => exact absurd h (go_scalar_nok f v _ k rest t (by simp [PVal.typeOf]))
  | none => exact absurd h (go_scalar_nok f v _ k rest t (by simp [PVal.typeOf]))
  | listIndex a =>
      exact absurd h (go_scalar_nok f v _ k rest t (by simp [PVal.typeOf]))

theorem go_preserves_hasPath : ∀ (q f : List PVal) (v s t : PVal) (p : List PVal),
    nested_set_dict_go f v s q = .ok t → hasPath s p → hasPath t p
  | [], f, v, s, t, p, h, _ => by rw [go_nil] at h; cases h
  | k :: q', f, v, s, t, p, h, hp => by
      cases s with
      | str a => exact absurd h (go_str_nok f v a k q' t)
      | int a => exact absurd h (go_scalar_nok f v _ k q' t (by simp [PVal.typeOf]))
      | none => exact absurd h (go_scalar_nok f v _ k q' t (by simp [PVal.typeOf]))
      | listIndex a =>
          exact absurd h (go_scalar_nok f v _ k q' t (by simp [PVal.typeOf]))
      | list xs =>
          cases p with
          | nil => exact hasPath_nil t
          | cons k' p' => exact absurd hp (hasPath_nondict (by simp [PVal.typeOf]))
      | tup xs =>
          cases p with
          | nil => exact hasPath_nil t
          | cons k' p' => exact absurd hp (hasPath_nondict (by simp [PVal.typeOf]))
      | dict kvs =>
          cases hk : k.hashable with
          | false =>
              rw [go_dict_unhash f v kvs k q' hk] at h
              cases h
          | true =>
          cases q' with
          | nil =>
              rw [go_last_dict f v kvs k hk] at h
              by_cases hl : (kvs.lookup k).isSome
              · simp [hl] at h
              · simp only [hl, if_false, Bool.false_eq_true] at h
                cases h
                cases p with
                | nil => exact hasPath_nil _
                | cons k' p' =>
                    obtain ⟨hk', w, hl', hw⟩ := hasPath_dict_iff.mp hp
                    rw [hasPath_dict_some hk'
                      (PDict.lookup_push_of_some kvs k k' v w hl')]
                    exact hw
          | cons k2 rest =>
              rw [go_cons_dict f v kvs k k2 rest hk] at h
              cases hl : kvs.lookup k with
              | some inner =>
                  simp only [hl] at h
                  cases hg : nested_set_dict_go f v inner (k2 :: rest) with
                  | error e => rw [hg] at h; simp [Except.map] at h
                  | ok inner' =>
                      rw [hg] at h
                      simp only [Except.map] at h
                      cases h
                      cases p with
                      | nil => exact hasPath_nil _
                      | cons k' p' =>
                          obtain ⟨hk', w, hl', hw⟩ := hasPath_dict_iff.mp hp
                          by_cases hkk : k = k'
                          · subst hkk
                            rw [hl] at hl'
                            injection hl' with hl'
                            subst hl'
                            rw [hasPath_dict_some hk'
                              (PDict.lookup_set_eq kvs k inner' (by simp [hl]))]
                            exact go_preserves_hasPath (k2 :: rest) f v inner
                              inner' p' hg hw
                          · rw [hasPath_dict_some hk'
                              (show (kvs.set k inner').lookup k' = some w by
                                rw [PDict.lookup_set_ne kvs k k' inner' hkk]
                                exact hl')]
                            exact hw
              | none =>
                  simp only [hl] at h
                  cases hg : nested_set_dict_go f v (.dict .nil) (k2 :: rest) with
                  | error e => rw [hg] at h; simp [Except.map] at h
                  | ok inner' =>
                      rw [hg] at h
                      simp only [Except.map] at h
                      cases h
                      cases p with
                      | nil => exact hasPath_nil _
                      | cons k' p' =>
                          obtain ⟨hk', w, hl', hw⟩ := hasPath_dict_iff.mp hp
                          by_cases hkk : k = k'
                          · subst hkk
                            rw [hl] at hl'
                            cases hl'
                          · rw [hasPath_dict_some hk'
                              (show (kvs.push k inner').lookup k' = some w by
                                rw [PDict.lookup_push_ne kvs k k' inner' hkk]
                                exact hl')]
                            exact hw

theorem go_preserves_dictSafe : ∀ (q f : List PVal) (v s t : PVal),
    nested_set_dict_go f v s q = .ok t → s.dictSafe = true →
    v.dictSafe = true → t.dictSafe = true
  | [], f, v, s, t, h, _, _ => by rw [go_nil] at h; cases h
  | k :: q', f, v, s, t, h, hs, hv => by
      obtain ⟨kvs, rfl⟩ := go_ok_dict h hs
      have hsD : kvs.dictSafeD = true := by simpa [PVal.dictSafe] using hs
      cases hk : k.hashable with
      | false =>
          rw [go_dict_unhash f v kvs k q' hk] at h
          cases h
      | true =>
          cases q' with
          | nil =>
              rw [go_last_dict f v kvs k hk] at h
              by_cases hl : (kvs.lookup k).isSome
              · simp [hl] at h
              · simp only [hl, if_false, Bool.false_eq_true] at h
                cases h
                simpa [PVal.dictSafe] using dictSafeD_push kvs k v hsD hv
          | cons k2 rest =>
              rw [go_cons_dict f v kvs k k2 rest hk] at h
              cases hl : kvs.lookup k with
              | some inner =>
                  simp only [hl] at h
                  cases hg : nested_set_dict_go f v inner (k2 :: rest) with
                  | error e => rw [hg] at h; simp [Except.map] at h
                  | ok inner' =>
                      rw [hg] at h
                      simp only [Except.map] at h
                      cases h
                      have hinner : inner'.dictSafe = true :=
                        go_preserves_dictSafe (k2 :: rest) f v inner inner' hg
                          (dictSafeD_lookup kvs k inner hsD hl) hv
                      simpa [PVal.dictSafe] using dictSafeD_set kvs k inner' hsD hinner
              | none =>
                  simp only [hl] at h
                  cases hg : nested_set_dict_go f v (.dict .nil) (k2 :: rest) with
                  | error e => rw [hg] at h; simp [Except.map] at h
                  | ok inner' =>
                      rw [hg] at h
                      simp only [Except.map] at h
                      cases h
                      have hinner : inner'.dictSafe = true :=
                        go_preserves_dictSafe (k2 :: rest) f v (.dict .nil) inner' hg
                          (by simp [PVal.dictSafe, PDict.dictSafeD]) hv
                      simpa [PVal.dictSafe] using dictSafeD_push kvs k inner' hsD hinner

theorem go_establishes_hasPath : ∀ (q f : List PVal) (v s t : PVal),
    nested_set_dict_go f v s q = .ok t → s.dictSafe = true → hasPath t q
  | [], f, v, s, t, h, _ => by rw [go_nil] at h; cases h
  | [k], f, v, s, t, h, hs => by
      obtain ⟨kvs, rfl⟩ := go_ok_dict h hs
      cases hk : k.hashable with
      | false =>
          rw [go_dict_unhash f v kvs k [] hk] at h
          cases h
      | true =>
          rw [go_last_dict f v kvs k hk] at h
          by_cases hl : (kvs.lookup k).isSome
          · simp [hl] at h
          · simp only [hl, if_false, Bool.false_eq_true] at h
            cases h
            rw [hasPath_dict_some hk (PDict.lookup_push_self kvs k v
              (by rwa [Option.not_isSome_iff_eq_none] at hl))]
            exact hasPath_nil v
  | k :: k2 :: rest, f, v, s, t, h, hs => by
      obtain ⟨kvs, rfl⟩ := go_ok_dict h hs
      have hsD : kvs.dictSafeD = true := by simpa [PVal.dictSafe] using hs
      cases hk : k.hashable with
      | false =>
          rw [go_dict_unhash f v kvs k (k2 :: rest) hk] at h
          cases h
      | true =>
          rw [go_cons_dict f v kvs k k2 rest hk] at h
          cases hl : kvs.lookup k with
          | some inner =>
              simp only [hl] at h
              cases hg : nested_set_dict_go f v inner (k2 :: rest) with
              | error e => rw [hg] at h; simp [Except.map] at h
              | ok inner' =>
                  rw [hg] at h
                  simp only [Except.map] at h
                  cases h
                  rw [hasPath_dict_some hk (PDict.lookup_set_eq kvs k inner'
                    (by simp [hl]))]
                  exact go_establishes_hasPath (k2 :: rest) f v inner inner' hg
                    (dictSafeD_lookup kvs k inner hsD hl)
          | none =>
              simp only [hl] at h
              cases hg : nested_set_dict_go f v (.dict .nil) (k2 :: rest) with
              | error e => rw [hg] at h; simp [Except.map] at h
              | ok inner' =>
                  rw [hg] at h
                  simp only [Except.map] at h
                  cases h
                  rw [hasPath_dict_some hk (PDict.lookup_push_self kvs k inner' hl)]
                  exact go_establishes_hasPath (k2 :: rest) f v (.dict .nil)
                    inner' hg (by simp [PVal.dictSafe, PDict.dictSafeD])

theorem go_fails_on_hasPath : ∀ (q f : List PVal) (v s : PVal), hasPath s q →
    q ≠ [] → nested_set_dict_go f v s q = .error (.duplicatedKeyPath f)
  | [], _, _, _, _, hq => absurd rfl hq
  | [k], f, v, s, hp, _ => by
      cases s with
      | dict kvs =>
          obtain ⟨hk, w, hl, _⟩ := hasPath_dict_iff.mp hp
          rw [go_last_dict f v kvs k hk]
          simp [hl]
      | str a => exact absurd hp (hasPath_nondict (by simp [PVal.typeOf]))
      | int a => exact absurd hp (hasPath_nondict (by simp [PVal.typeOf]))
      | none => exact absurd hp (hasPath_nondict (by simp [PVal.typeOf]))
      | listIndex a => exact absurd hp (hasPath_nondict (by simp [PVal.typeOf]))
      | tup xs => exact absurd hp (hasPath_nondict (by simp [PVal.typeOf]))
      | list xs => exact absurd hp (hasPath_nondict (by simp [PVal.typeOf]))
  | k :: k2 :: rest, f, v, s, hp, _ => by
      cases s with
      | dict kvs =>
          obtain ⟨hk, w, hl, hw⟩ := hasPath_dict_iff.mp hp
          rw [go_cons_dict f v kvs k k2 rest hk]
          simp only [hl]
          rw [go_fails_on_hasPath (k2 :: rest) f v w hw (by simp)]
          rfl
      | str a => exact absurd hp (hasPath_nondict (by simp [PVal.typeOf]))
      | int a => exact absurd hp (hasPath_nondict (by simp [PVal.typeOf]))
      | none => exact absurd hp (hasPath_nondict (by simp [PVal.typeOf]))
      | listIndex a => exact absurd hp (hasPath_nondict (by simp [PVal.typeOf]))
      | tup xs => exact absurd hp (hasPath_nondict (by simp [PVal.typeOf]))
      | list xs => exact absurd hp (hasPath_nondict (by simp [PVal.typeOf]))

theorem SetOK_empty (s : PVal) : ¬ SetOK s [] := by
  cases s <;> simp [SetOK]

theorem SetOK_cons_hashable {kvs : PDict} {k : PVal} {rest : List PVal}
    (h : SetOK (.dict kvs) (k :: rest)) : k.hashable = true := by
  cases rest <;> exact h.1

theorem SetOK_dict_last {kvs : PDict} {k : PVal} (hk : k.hashable = true) :
    SetOK (.dict kvs) [k] ↔ kvs.lookup k = Option.none := by
  simp [SetOK, hk]

theorem SetOK_dict_cons_some {kvs : PDict} {k k2 : PVal} {rest : List PVal}
    {inner : PVal} (hk : k.hashable = true) (hl : kvs.lookup k = some inner) :
    SetOK (.dict kvs) (k :: k2 :: rest) ↔ SetOK inner (k2 :: rest) := by
  simp [SetOK, hk, hl]

theorem SetOK_dict_cons_none {kvs : PDict} {k k2 : PVal} {rest : List PVal}
    (hk : k.hashable = true) (hl : kvs.lookup k = Option.none) :
    SetOK (.dict kvs) (k :: k2 :: rest) ↔ SetOK (.dict .nil) (k2 :: rest) := by
  simp [SetOK, hk, hl]

theorem SetOK_nondict {s k : PVal} {rest : List PVal}
    (h : s.typeOf ≠ PType.dict) : ¬ SetOK s (k :: rest) := by
  cases s <;> simp [PVal.typeOf] at h <;> cases rest <;> simp [SetOK]

theorem SetOK_keys_hashable : ∀ (q : List PVal) (s : PVal), SetOK s q →
    ∀ k ∈ q, k.hashable = true
  | [], s, h, _, _ => absurd h (SetOK_empty s)
  | k1 :: rest, s, h, k, hk => by
      cases s with
      | dict kvs =>
          have h1 := SetOK_cons_hashable h
          rcases List.mem_cons.mp hk with rfl | hmem
          · exact h1
          · cases rest with
            | nil => cases hmem
            | cons k2 r =>
                cases hl : kvs.lookup k1 with
                | some inner =>
                    rw [SetOK_dict_cons_some h1 hl] at h
                    exact SetOK_keys_hashable (k2 :: r) inner h k hmem
                | none =>
                    rw [SetOK_dict_cons_none h1 hl] at h
                    exact SetOK_keys_hashable (k2 :: r) (.dict .nil) h k hmem
      | str a => exact absurd h (SetOK_nondict (by simp [PVal.typeOf]))
      | int a => exact absurd h (SetOK_nondict (by simp [PVal.typeOf]))
      | none => exact absurd h (SetOK_nondict (by simp [PVal.typeOf]))
      | listIndex a => exact absurd h (SetOK_nondict (by simp [PVal.typeOf]))
      | tup xs => exact absurd h (SetOK_nondict (by simp [PVal.typeOf]))
      | list xs => exact absurd h (SetOK_nondict (by simp [PVal.typeOf]))

theorem SetOK_fresh : ∀ (q : List PVal), q ≠ [] →
    (∀ k ∈ q, k.hashable = true) → SetOK (.dict .nil) q
  | [], hq, _ => absurd rfl hq
  | [k], _, hh => by
      rw [SetOK_dict_last (hh k (by simp))]
      simp [PDict.lookup]
  | k :: k2 :: rest, _, hh => by
      rw [SetOK_dict_cons_none (hh k (by simp)) (by simp [PDict.lookup])]
      exact SetOK_fresh (k2 :: rest) (by simp)
        (fun x hx => hh x (List.mem_cons_of_mem k hx))

theorem go_ok_SetOK : ∀ (q f : List PVal) (v s t : PVal),
    nested_set_dict_go f v s q = .ok t → s.dictSafe = true → SetOK s q
  | [], f, v, s, t, h, _ => by rw [go_nil] at h; cases h
  | [k], f, v, s, t, h, hs => by
      obtain ⟨kvs, rfl⟩ := go_ok_dict h hs
      cases hk : k.hashable with
      | false =>
          rw [go_dict_unhash f v kvs k [] hk] at h
          cases h
      | true =>
          rw [go_last_dict f v kvs k hk] at h
          by_cases hl : (kvs.lookup k).isSome
          · simp [hl] at h
          · rw [SetOK_dict_last hk]
            rwa [Option.not_isSome_iff_eq_none] at hl
  | k :: k2 :: rest, f, v, s, t, h, hs => by
      obtain ⟨kvs, rfl⟩ := go_ok_dict h hs
      have hsD : kvs.dictSafeD = true := by simpa [PVal.dictSafe] using hs
      cases hk : k.hashable with
      | false =>
          rw [go_dict_unhash f v kvs k (k2 :: rest) hk] at h
          cases h
      | true =>
          rw [go_cons_dict f v kvs k k2 rest hk] at h
          cases hl : kvs.lookup k with
          | some inner =>
              simp only [hl] at h
              cases hg : nested_set_dict_go f v inner (k2 :: rest) with
              | error e => rw [hg] at h; simp [Except.map] at h
              | ok inner' =>
                  rw [SetOK_dict_cons_some hk hl]
                  exact go_ok_SetOK (k2 :: rest) f v inner inner' hg
                    (dictSafeD_lookup kvs k inner hsD hl)
          | none =>
              simp only [hl] at h
              cases hg : nested_set_dict_go f v (.dict .nil) (k2 :: rest) with
              | error e => rw [hg] at h; simp [Except.map] at h
              | ok inner' =>
                  rw [SetOK_dict_cons_none hk hl]
                  exact go_ok_SetOK (k2 :: rest) f v (.dict .nil) inner' hg
                    (by simp [PVal.dictSafe, PDict.dictSafeD])

theorem SetOK_go_ok : ∀ (q f : List PVal) (v s : PVal), SetOK s q →
    ∃ t, nested_set_dict_go f v s q = .ok t
  | [], f, v, s, h => absurd h (SetOK_empty s)
  | [k], f, v, s, h => by
      cases s with
      | dict kvs =>
          have hk := SetOK_cons_hashable h
          rw [SetOK_dict_last hk] at h
          exact ⟨.dict (kvs.push k v), by rw [go_last_dict f v kvs k hk]; simp [h]⟩
      | str a => exact absurd h (SetOK_nondict (by simp [PVal.typeOf]))
      | int a => exact absurd h (SetOK_nondict (by simp [PVal.typeOf]))
      | none => exact absurd h (SetOK_nondict (by simp [PVal.typeOf]))
      | listIndex a => exact absurd h (SetOK_nondict (by simp [PVal.typeOf]))
      | tup xs => exact absurd h (SetOK_nondict (by simp [PVal.typeOf]))
      | list xs => exact absurd h (SetOK_nondict (by simp [PVal.typeOf]))
  | k :: k2 :: rest, f, v, s, h => by
      cases s with
      | dict kvs =>
          have hk := SetOK_cons_hashable h
          cases hl : kvs.lookup k with
          | some inner =>
              rw [SetOK_dict_cons_some hk hl] at h
              obtain ⟨t, ht⟩ := SetOK_go_ok (k2 :: rest) f v inner h
              exact ⟨.dict (kvs.set k t), by
                rw [go_cons_dict f v kvs k k2 rest hk]
                simp [hl, ht, Except.map]⟩
          | none =>
              rw [SetOK_dict_cons_none hk hl] at h
              obtain ⟨t, ht⟩ := SetOK_go_ok (k2 :: rest) f v (.dict .nil) h
              exact ⟨.dict (kvs.push k t), by
                rw [go_cons_dict f v kvs k k2 rest hk]
                simp [hl, ht, Except.map]⟩
      | str a => exact absurd h (SetOK_nondict (by simp [PVal.typeOf]))
      | int a => exact absurd h (SetOK_nondict (by simp [PVal.typeOf]))
      | none => exact absurd h (SetOK_nondict (by simp [PVal.typeOf]))
      | listIndex a => exact absurd h (SetOK_nondict (by simp [PVal.typeOf]))
      | tup xs => exact absurd h (SetOK_nondict (by simp [PVal.typeOf]))
      | list xs => exact absurd h (SetOK_nondict (by simp [PVal.typeOf]))

theorem go_ok_cases_dict {f : List PVal} {v t : PVal} {kvs : PDict}
    {k1 : PVal} {p' : List PVal}
    (h : nested_set_dict_go f v (.dict kvs) (k1 :: p') = .ok t) :
    k1.hashable = true ∧
      ((p' = [] ∧ kvs.lookup k1 = Option.none ∧ t = .dict (kvs.push k1 v)) ∨
       (p' ≠ [] ∧ ∃ inner w, kvs.lookup k1 = some inner ∧
          nested_set_dict_go f v inner p' = .ok w ∧ t = .dict (kvs.set k1 w)) ∨
       (p' ≠ [] ∧ ∃ w, kvs.lookup k1 = Option.none ∧
          nested_set_dict_go f v (.dict .nil) p' = .ok w ∧
          t = .dict (kvs.push k1 w))) := by
  cases hk : k1.hashable with
  | false =>
      rw [go_dict_unhash f v kvs k1 p' hk] at h
      cases h
  | true =>
      refine ⟨rfl, ?_⟩
      cases p' with
      | nil =>
          rw [go_last_dict f v kvs k1 hk] at h
          by_cases hl : (kvs.lookup k1).isSome
          · simp [hl] at h
          · refine Or.inl ⟨rfl, by rwa [Option.not_isSome_iff_eq_none] at hl, ?_⟩
            simp only [hl, if_false, Bool.false_eq_true] at h
            cases h
            rfl
      | cons k2 rest =>
          rw [go_cons_dict f v kvs k1 k2 rest hk] at h
          cases hl : kvs.lookup k1 with
          | some inner =>
              simp only [hl] at h
              cases hg : nested_set_dict_go f v inner (k2 :: rest) with
              | error e => rw [hg] at h; simp [Except.map] at h
              | ok w =>
                  rw [hg] at h
                  simp only [Except.map] at h
                  cases h
                  exact Or.inr (Or.inl ⟨by simp, inner, w, rfl, hg, rfl⟩)
          | none =>
              simp only [hl] at h
              cases hg : nested_set_dict_go f v (.dict .nil) (k2 :: rest) with
              | error e => rw [hg] at h; simp [Except.map] at h
              | ok w =>
                  rw [hg] at h
                  simp only [Except.map] at h
                  cases h
                  exact Or.inr (Or.inr ⟨by simp, w, rfl, rfl, rfl⟩)

theorem go_ok_cases {f : List PVal} {v s t : PVal} {k1 : PVal} {p' : List PVal}
    (h : nested_set_dict_go f v s (k1 :: p') = .ok t) (hs : s.dictSafe = true) :
    ∃ kvs, s = .dict kvs ∧ k1.hashable = true ∧
      ((p' = [] ∧ kvs.lookup k1 = Option.none ∧ t = .dict (kvs.push k1 v)) ∨
       (p' ≠ [] ∧ ∃ inner w, kvs.lookup k1 = some inner ∧
          nested_set_dict_go f v inner p' = .ok w ∧ t = .dict (kvs.set k1 w)) ∨
       (p' ≠ [] ∧ ∃ w, kvs.lookup k1 = Option.none ∧
          nested_set_dict_go f v (.dict .nil) p' = .ok w ∧
          t = .dict (kvs.push k1 w))) := by
  obtain ⟨kvs, rfl⟩ := go_ok_dict h hs
  exact ⟨kvs, rfl, go_ok_cases_dict h⟩

theorem go_preserves_SetOK_backward : ∀ (q p f : List PVal) (v s u : PVal),
    nested_set_dict_go f v s p = .ok u → s.dictSafe = true →
    SetOK u q → SetOK s q
  | [], _, _, _, _, u, _, _, hq => absurd hq (SetOK_empty u)
  | _ :: _, [], f, v, s, u, h, _, _ => by rw [go_nil] at h; cases h
  | k2 :: q', k1 :: p', f, v, s, u, h, hsafe, hq => by
      obtain ⟨kvs, rfl, hk1, hc⟩ := go_ok_cases h hsafe
      have hsD : kvs.dictSafeD = true := by simpa [PVal.dictSafe] using hsafe
      rcases hc with ⟨hp', hl, ht⟩ | ⟨hp', inner, w, hl, hgo, ht⟩ | ⟨hp', w, hl, hgo, ht⟩
      · subst ht
        have hk2 := SetOK_cons_hashable hq
        by_cases hk : k1 = k2
        · subst hk
          cases q' with
          | nil =>
              rw [SetOK_dict_last hk2, PDict.lookup_push_self kvs k1 v hl] at hq
              cases hq
          | cons c q'' =>
              rw [SetOK_dict_cons_some hk2 (PDict.lookup_push_self kvs k1 v hl)] at hq
              rw [SetOK_dict_cons_none hk2 hl]
              exact SetOK_fresh (c :: q'') (by simp)
                (SetOK_keys_hashable (c :: q'') v hq)
        · have hpk : (kvs.push k1 v).lookup k2 = kvs.lookup k2 :=
            PDict.lookup_push_ne kvs k1 k2 v hk
          cases q' with
          | nil =>
              rw [SetOK_dict_last hk2, hpk] at hq
              rw [SetOK_dict_last hk2]
              exact hq
          | cons c q'' =>
              cases hl2 : kvs.lookup k2 with
              | some inner2 =>
                  rw [SetOK_dict_cons_some hk2 (hpk.trans hl2)] at hq
                  rw [SetOK_dict_cons_some hk2 hl2]
                  exact hq
              | none =>
                  rw [SetOK_dict_cons_none hk2 (hpk.trans hl2)] at hq
                  rw [SetOK_dict_cons_none hk2 hl2]
                  exact hq
      · subst ht
        have hk2 := SetOK_cons_hashable hq
        by_cases hk : k1 = k2
        · subst hk
          have hsk : (kvs.set k1 w).lookup k1 = some w :=
            PDict.lookup_set_eq kvs k1 w (by simp [hl])
          cases q' with
          | nil =>
              rw [SetOK_dict_last hk2, hsk] at hq
              cases hq
          | cons c q'' =>
              rw [SetOK_dict_cons_some hk2 hsk] at hq
              rw [SetOK_dict_cons_some hk2 hl]
              exact go_preserves_SetOK_backward (c :: q'') p' f v inner w hgo
                (dictSafeD_lookup kvs k1 inner hsD hl) hq
        · have hpk : (kvs.set k1 w).lookup k2 = kvs.lookup k2 :=
            PDict.lookup_set_ne kvs k1 k2 w hk
          cases q' with
          | nil =>
              rw [SetOK_dict_last hk2, hpk] at hq
              rw [SetOK_dict_last hk2]
              exact hq
          | cons c q'' =>
              cases hl2 : kvs.lookup k2 with
              | some inner2 =>
                  rw [SetOK_dict_cons_some hk2 (hpk.trans hl2)] at hq
                  rw [SetOK_dict_cons_some hk2 hl2]
                  exact hq
              | none =>
                  rw [SetOK_dict_cons_none hk2 (hpk.trans hl2)] at hq
                  rw [SetOK_dict_cons_none hk2 hl2]
                  exact hq
      · subst ht
        have hk2 := SetOK_cons_hashable hq
        by_cases hk : k1 = k2
        · subst hk
          have hsk : (kvs.push k1 w).lookup k1 = some w :=
            PDict.lookup_push_self kvs k1 w hl
          cases q' with
          | nil =>
              rw [SetOK_dict_last hk2, hsk] at hq
              cases hq
          | cons c q'' =>
              rw [SetOK_dict_cons_some hk2 hsk] at hq
              rw [SetOK_dict_cons_none hk2 hl]
              exact go_preserves_SetOK_backward (c :: q'') p' f v (.dict .nil) w hgo
                (by simp [PVal.dictSafe, PDict.dictSafeD]) hq
        · have hpk : (kvs.push k1 w).lookup k2 = kvs.lookup k2 :=
            PDict.lookup_push_ne kvs k1 k2 w hk
          cases q' with
          | nil =>
              rw [SetOK_dict_last hk2, hpk] at hq
              rw [SetOK_dict_last hk2]
              exact hq
          | cons c q'' =>
              cases hl2 : kvs.lookup k2 with
              | some inner2 =>
                  rw [SetOK_dict_cons_some hk2 (hpk.trans hl2)] at hq
                  rw [SetOK_dict_cons_some hk2 hl2]
                  exact hq
              | none =>
                  rw [SetOK_dict_cons_none hk2 (hpk.trans hl2)] at hq
                  rw [SetOK_dict_cons_none hk2 hl2]
                  exact hq

theorem go_build_last {kvs : PDict} {k : PVal} (f : List PVal) (v : PVal)
    (hk : k.hashable = true) (hl : kvs.lookup k = Option.none) :
    nested_set_dict_go f v (.dict kvs) [k] = .ok (.dict (kvs.push k v)) := by
  rw [go_last_dict f v kvs k hk]
  simp [hl]

theorem go_build_some {kvs : PDict} {k : PVal} {rest : List PVal}
    {inner w : PVal} (f : List PVal) (v : PVal) (hk : k.hashable = true)
    (hl : kvs.lookup k = some inner) (hr : rest ≠ [])
    (hw : nested_set_dict_go f v inner rest = .ok w) :
    nested_set_dict_go f v (.dict kvs) (k :: rest) = .ok (.dict (kvs.set k w)) := by
  cases rest with
  | nil => exact absurd rfl hr
  | cons c cs =>
      rw [go_cons_dict f v kvs k c cs hk]
      simp [hl, hw, Except.map]

theorem go_build_none {kvs : PDict} {k : PVal} {rest : List PVal}
    {w : PVal} (f : List PVal) (v : PVal) (hk : k.hashable = true)
    (hl : kvs.lookup k = Option.none) (hr : rest ≠ [])
    (hw : nested_set_dict_go f v (.dict .nil) rest = .ok w) :
    nested_set_dict_go f v (.dict kvs) (k :: rest) = .ok (.dict (kvs.push k w)) := by
  cases rest with
  | nil => exact absurd rfl hr
  | cons c cs =>
      rw [go_cons_dict f v kvs k c cs hk]
      simp [hl, hw, Except.map]

theorem go_swap : ∀ (p q f1 f2 : List PVal) (v1 v2 : PVal) (s sf sfe : PVal),
    nested_set_dict_go f1 v1 s p = .ok sf →
    nested_set_dict_go f2 v2 sf q = .ok sfe →
    ¬ (p <+: q) → s.dictSafe = true → v1.dictSafe = true →
    ∃ se sef, nested_set_dict_go f2 v2 s q = .ok se ∧
      nested_set_dict_go f1 v1 se p = .ok sef ∧ CEquiv sef sfe
  | [], q, f1, f2, v1, v2, s, sf, sfe, h1, _, _, _, _ => by
      rw [go_nil] at h1; cases h1
  | k1 :: p', [], f1, f2, v1, v2, s, sf, sfe, _, h2, _, _, _ => by
      rw [go_nil] at h2; cases h2
  | k1 :: p', k2 :: q', f1, f2, v1, v2, s, sf, sfe, h1, h2, hnp, hsafe, hv1 => by
      obtain ⟨kvs, rfl, hk1, hc⟩ := go_ok_cases h1 hsafe
      have hsD : kvs.dictSafeD = true := by simpa [PVal.dictSafe] using hsafe
      by_cases hk : k1 = k2
      · subst hk
        rcases hc with ⟨hp', hl, ht⟩ | ⟨hp', inner, w, hl, hgo, ht⟩ |
          ⟨hp', w, hl, hgo, ht⟩
        · subst hp'
          exact absurd ⟨q', rfl⟩ hnp
        · subst ht
          have hlw : (kvs.set k1 w).lookup k1 = some w :=
            PDict.lookup_set_eq kvs k1 w (by simp [hl])
          cases q' with
          | nil =>
              rw [go_last_dict f2 v2 _ k1 hk1] at h2
              simp [hlw] at h2
          | cons c q'' =>
              have hq'ne : (c :: q'' : List PVal) ≠ [] := by simp
              obtain ⟨hk2, hc2⟩ := go_ok_cases_dict h2
              rcases hc2 with ⟨habs, _, _⟩ | ⟨_, inner2, w2, hl2, hgo2, ht2⟩ |
                ⟨_, w2, hl2, _, _⟩
              · exact absurd habs (by simp)
              · rw [hlw] at hl2
                injection hl2 with hl2
                subst hl2
                have hnp' : ¬ (p' <+: (c :: q'')) := by
                  intro hpre
                  exact hnp (List.cons_prefix_cons.mpr ⟨rfl, hpre⟩)
                obtain ⟨ie, ief, hie, hief, hequiv⟩ :=
                  go_swap p' (c :: q'') f1 f2 v1 v2 inner w w2 hgo hgo2 hnp'
                    (dictSafeD_lookup kvs k1 inner hsD hl) hv1
                refine ⟨.dict (kvs.set k1 ie), .dict (kvs.set k1 ief),
                  go_build_some f2 v2 hk1 hl hq'ne hie, ?_, ?_⟩
                · have := go_build_some f1 v1 hk1
                    (PDict.lookup_set_eq kvs k1 ie (by simp [hl]))
                    (show p' ≠ [] from hp') hief
                  rwa [PDict.set_set_same] at this
                · subst ht2
                  rw [PDict.set_set_same]
                  exact .dict (CDEquiv.set_congr (cdequiv_refl kvs) k1 hequiv)
              · rw [hlw] at hl2
                cases hl2
        · subst ht
          have hlw : (kvs.push k1 w).lookup k1 = some w :=
            PDict.lookup_push_self kvs k1 w hl
          cases q' with
          | nil =>
              rw [go_last_dict f2 v2 _ k1 hk1] at h2
              simp [hlw] at h2
          | cons c q'' =>
              have hq'ne : (c :: q'' : List PVal) ≠ [] := by simp
              obtain ⟨hk2, hc2⟩ := go_ok_cases_dict h2
              rcases hc2 with ⟨habs, _, _⟩ | ⟨_, inner2, w2, hl2, hgo2, ht2⟩ |
                ⟨_, w2, hl2, _, _⟩
              · exact absurd habs (by simp)
              · rw [hlw] at hl2
                injection hl2 with hl2
                subst hl2
                have hnp' : ¬ (p' <+: (c :: q'')) := by
                  intro hpre
                  exact hnp (List.cons_prefix_cons.mpr ⟨rfl, hpre⟩)
                obtain ⟨ie, ief, hie, hief, hequiv⟩ :=
                  go_swap p' (c :: q'') f1 f2 v1 v2 (.dict .nil) w w2 hgo hgo2 hnp'
                    (by simp [PVal.dictSafe, PDict.dictSafeD]) hv1
                refine ⟨.dict (kvs.push k1 ie), .dict (kvs.push k1 ief),
                  go_build_none f2 v2 hk1 hl hq'ne hie, ?_, ?_⟩
                · have := go_build_some f1 v1 hk1
                    (PDict.lookup_push_self kvs k1 ie hl)
                    (show p' ≠ [] from hp') hief
                  rwa [PDict.set_push_self kvs k1 ie ief hl] at this
                · subst ht2
                  rw [PDict.set_push_self kvs k1 w w2 hl]
                  exact .dict (CDEquiv.push_congr (cdequiv_refl kvs) k1 hequiv)
              · rw [hlw] at hl2
                cases hl2
      · rcases hc with ⟨hp', hl, ht⟩ | ⟨hp', inner, w, hl, hgo, ht⟩ |
          ⟨hp', w, hl, hgo, ht⟩
        · subst hp'
          subst ht
          have hpk : (kvs.push k1 v1).lookup k2 = kvs.lookup k2 :=
            PDict.lookup_push_ne kvs k1 k2 v1 hk
          obtain ⟨hk2, hc2⟩ := go_ok_cases_dict h2
          rcases hc2 with ⟨hq', hl2, ht2⟩ | ⟨hq', inner2, w2, hl2, hgo2, ht2⟩ |
            ⟨hq', w2, hl2, hgo2, ht2⟩
          · subst hq'
            subst ht2
            rw [hpk] at hl2
            refine ⟨.dict (kvs.push k2 v2), .dict ((kvs.push k2 v2).push k1 v1),
              go_build_last f2 v2 hk2 hl2,
              go_build_last f1 v1 hk1
                (by rw [PDict.lookup_push_ne kvs k2 k1 v2 (Ne.symm hk)]; exact hl), ?_⟩
            exact .dict (CDEquiv.push_push kvs k2 k1 v2 v1 (Ne.symm hk))
          · subst ht2
            rw [hpk] at hl2
            refine ⟨.dict (kvs.set k2 w2), .dict ((kvs.set k2 w2).push k1 v1),
              go_build_some f2 v2 hk2 hl2 hq' hgo2,
              go_build_last f1 v1 hk1
                (by rw [PDict.lookup_set_ne kvs k2 k1 w2 (Ne.symm hk)]; exact hl), ?_⟩
            rw [PDict.set_push_comm kvs k1 k2 v1 w2 hk]
            exact cequiv_refl _
          · subst ht2
            rw [hpk] at hl2
            refine ⟨.dict (kvs.push k2 w2), .dict ((kvs.push k2 w2).push k1 v1),
              go_build_none f2 v2 hk2 hl2 hq' hgo2,
              go_build_last f1 v1 hk1
                (by rw [PDict.lookup_push_ne kvs k2 k1 w2 (Ne.symm hk)]; exact hl), ?_⟩
            exact .dict (CDEquiv.push_push kvs k2 k1 w2 v1 (Ne.symm hk))
        · subst ht
          have hpk : (kvs.set k1 w).lookup k2 = kvs.lookup k2 :=
            PDict.lookup_set_ne kvs k1 k2 w hk
          obtain ⟨hk2, hc2⟩ := go_ok_cases_dict h2
          rcases hc2 with ⟨hq', hl2, ht2⟩ | ⟨hq', inner2, w2, hl2, hgo2, ht2⟩ |
            ⟨hq', w2, hl2, hgo2, ht2⟩
          · subst hq'
            subst ht2
            rw [hpk] at hl2
            refine ⟨.dict (kvs.push k2 v2), .dict ((kvs.push k2 v2).set k1 w),
              go_build_last f2 v2 hk2 hl2,
              go_build_some f1 v1 hk1
                (show (kvs.push k2 v2).lookup k1 = some inner by
                  rw [PDict.lookup_push_ne kvs k2 k1 v2 (Ne.symm hk)]; exact hl)
                hp' hgo, ?_⟩
            rw [PDict.set_push_comm kvs k2 k1 v2 w (Ne.symm hk)]
            exact cequiv_refl _
          · subst ht2
            rw [hpk] at hl2
            refine ⟨.dict (kvs.set k2 w2), .dict ((kvs.set k2 w2).set k1 w),
              go_build_some f2 v2 hk2 hl2 hq' hgo2,
              go_build_some f1 v1 hk1
                (show (kvs.set k2 w2).lookup k1 = some inner by
                  rw [PDict.lookup_set_ne kvs k2 k1 w2 (Ne.symm hk)]; exact hl)
                hp' hgo, ?_⟩
            rw [PDict.set_set_comm kvs k1 k2 w w2 hk]
            exact cequiv_refl _
          · subst ht2
            rw [hpk] at hl2
            refine ⟨.dict (kvs.push k2 w2), .dict ((kvs.push k2 w2).set k1 w),
              go_build_none f2 v2 hk2 hl2 hq' hgo2,
              go_build_some f1 v1 hk1
                (show (kvs.push k2 w2).lookup k1 = some inner by
                  rw [PDict.lookup_push_ne kvs k2 k1 w2 (Ne.symm hk)]; exact hl)
                hp' hgo, ?_⟩
            rw [PDict.set_push_comm kvs k2 k1 w2 w (Ne.symm hk)]
            exact cequiv_refl _
        · subst ht
          have hpk : (kvs.push k1 w).lookup k2 = kvs.lookup k2 :=
            PDict.lookup_push_ne kvs k1 k2 w hk
          obtain ⟨hk2, hc2⟩ := go_ok_cases_dict h2
          rcases hc2 with ⟨hq', hl2, ht2⟩ | ⟨hq', inner2, w2, hl2, hgo2, ht2⟩ |
            ⟨hq', w2, hl2, hgo2, ht2⟩
          · subst hq'
            subst ht2
            rw [hpk] at hl2
            refine ⟨.dict (kvs.push k2 v2), .dict ((kvs.push k2 v2).push k1 w),
              go_build_last f2 v2 hk2 hl2,
              go_build_none f1 v1 hk1
                (by rw [PDict.lookup_push_ne kvs k2 k1 v2 (Ne.symm hk)]; exact hl)
                hp' hgo, ?_⟩
            exact .dict (CDEquiv.push_push kvs k2 k1 v2 w (Ne.symm hk))
          · subst ht2
            rw [hpk] at hl2
            refine ⟨.dict (kvs.set k2 w2), .dict ((kvs.set k2 w2).push k1 w),
              go_build_some f2 v2 hk2 hl2 hq' hgo2,
              go_build_none f1 v1 hk1
                (by rw [PDict.lookup_set_ne kvs k2 k1 w2 (Ne.symm hk)]; exact hl)
                hp' hgo, ?_⟩
            rw [PDict.set_push_comm kvs k1 k2 w w2 hk]
            exact cequiv_refl _
          · subst ht2
            rw [hpk] at hl2
            refine ⟨.dict (kvs.push k2 w2), .dict ((kvs.push k2 w2).push k1 w),
              go_build_none f2 v2 hk2 hl2 hq' hgo2,
              go_build_none f1 v1 hk1
                (by rw [PDict.lookup_push_ne kvs k2 k1 w2 (Ne.symm hk)]; exact hl)
                hp' hgo, ?_⟩
            exact .dict (CDEquiv.push_push kvs k2 k1 w2 w (Ne.symm hk))

theorem cequiv_nondict_eq {a b : PVal} (h : CEquiv a b)
    (ha : a.typeOf ≠ PType.dict) : b = a := by
  cases h with
  | nondict a _ => rfl
  | dict hd => simp [PVal.typeOf] at ha

theorem go_congr : ∀ (q f : List PVal) (v s s' t : PVal),
    nested_set_dict_go f v s q = .ok t → CEquiv s s' →
    ∃ t', nested_set_dict_go f v s' q = .ok t' ∧ CEquiv t t'
  | [], f, v, s, s', t, h, _ => by rw [go_nil] at h; cases h
  | k1 :: p', f, v, s, s', t, h, hcs => by
      cases hcs with
      | nondict a ha => exact ⟨t, h, cequiv_refl t⟩
      | dict hd =>
          rename_i kvs kvs'
          obtain ⟨hk1, hc⟩ := go_ok_cases_dict h
          rcases hc with ⟨hp', hl, ht⟩ | ⟨hp', inner, w, hl, hgo, ht⟩ |
            ⟨hp', w, hl, hgo, ht⟩
          · subst hp'
            subst ht
            have hoe := CDEquiv.lookup_equiv hd k1
            rw [hl] at hoe
            cases hl' : kvs'.lookup k1 with
            | some z => rw [hl'] at hoe; exact absurd hoe (by simp [OptEquiv])
            | none =>
                exact ⟨.dict (kvs'.push k1 v), go_build_last f v hk1 hl',
                  .dict (CDEquiv.push_congr hd k1 (cequiv_refl v))⟩
          · subst ht
            have hoe := CDEquiv.lookup_equiv hd k1
            rw [hl] at hoe
            cases hl' : kvs'.lookup k1 with
            | none => rw [hl'] at hoe; exact absurd hoe (by simp [OptEquiv])
            | some inner'' =>
                rw [hl'] at hoe
                have hoe' : CEquiv inner inner'' := hoe
                obtain ⟨w'', hw'', hcw⟩ := go_congr p' f v inner inner'' w hgo hoe'
                exact ⟨.dict (kvs'.set k1 w''),
                  go_build_some f v hk1 hl' hp' hw'',
                  .dict (CDEquiv.set_congr hd k1 hcw)⟩
          · subst ht
            have hoe := CDEquiv.lookup_equiv hd k1
            rw [hl] at hoe
            cases hl' : kvs'.lookup k1 with
            | some z => rw [hl'] at hoe; exact absurd hoe (by simp [OptEquiv])
            | none =>
                exact ⟨.dict (kvs'.push k1 w),
                  go_build_none f v hk1 hl' hp' hgo,
                  .dict (CDEquiv.push_congr hd k1 (cequiv_refl w))⟩

theorem setAll_cons_ok {ks : List PVal} {v : PVal} {rest : List (List PVal × PVal)}
    {s s' : PVal} (h : nested_set_dict s ks v = .ok s') :
    setAll ((ks, v) :: rest) s = setAll rest s' := by
  simp [setAll, h, Bind.bind, Except.bind]

theorem setAll_cons_elim {ks : List PVal} {v : PVal}
    {rest : List (List PVal × PVal)} {s r : PVal}
    (h : setAll ((ks, v) :: rest) s = .ok r) :
    ∃ s', nested_set_dict s ks v = .ok s' ∧ setAll rest s' = .ok r := by
  cases hd : nested_set_dict s ks v with
  | error e => rw [setAll, hd] at h; simp [Bind.bind, Except.bind] at h
  | ok s' =>
      refine ⟨s', rfl, ?_⟩
      rw [setAll, hd] at h
      simpa [Bind.bind, Except.bind] using h

theorem setAll_ok_split : ∀ (es1 es2 : List (List PVal × PVal)) (s r : PVal),
    setAll (es1 ++ es2) s = .ok r →
    ∃ m, setAll es1 s = .ok m ∧ setAll es2 m = .ok r
  | [], es2, s, r, h => ⟨s, rfl, h⟩
  | (ks, v) :: rest, es2, s, r, h => by
      obtain ⟨s', hd, htail⟩ := setAll_cons_elim h
      obtain ⟨m, h1, h2⟩ := setAll_ok_split rest es2 s' r htail
      exact ⟨m, by rw [setAll_cons_ok hd]; exact h1, h2⟩

theorem setAll_congr : ∀ (es : List (List PVal × PVal)) (s s' r : PVal),
    setAll es s = .ok r → CEquiv s s' →
    ∃ r', setAll es s' = .ok r' ∧ CEquiv r r'
  | [], s, s', r, h, hcs => by
      cases h
      exact ⟨s', rfl, hcs⟩
  | (ks, v) :: rest, s, s', r, h, hcs => by
      obtain ⟨m, hd, htail⟩ := setAll_cons_elim h
      obtain ⟨m', hd', hcm⟩ := go_congr ks ks v s s' m hd hcs
      obtain ⟨r', htail', hcr⟩ := setAll_congr rest m m' r htail hcm
      exact ⟨r', by rw [setAll_cons_ok hd']; exact htail', hcr⟩

theorem setAll_fails_on_hasPath : ∀ (es : List (List PVal × PVal)) (s : PVal)
    (p : List PVal) (w : PVal), (p, w) ∈ es → hasPath s p →
    ∀ r, setAll es s ≠ .ok r
  | [], _, _, _, hmem, _, _ => by cases hmem
  | (ks, v) :: rest, s, p, w, hmem, hp, r => by
      intro h
      obtain ⟨s', hd, htail⟩ := setAll_cons_elim h
      rcases List.mem_cons.mp hmem with heq | hmem'
      · obtain ⟨h1, h2⟩ := Prod.mk.injEq .. ▸ heq
        subst h1
        cases hpe : (p : List PVal) with
        | nil =>
            subst hpe
            rw [nested_set_dict, go_nil] at hd
            cases hd
        | cons a b =>
            subst hpe
            rw [nested_set_dict,
              go_fails_on_hasPath (a :: b) (a :: b) v s hp (by simp)] at hd
            cases hd
      · exact setAll_fails_on_hasPath rest s' p w hmem'
          (go_preserves_hasPath ks ks v s s' p hd hp) r htail

theorem setAll_preserves_dictSafe : ∀ (es : List (List PVal × PVal)) (s m : PVal),
    setAll es s = .ok m → s.dictSafe = true →
    (∀ x ∈ es, x.2.dictSafe = true) → m.dictSafe = true
  | [], s, m, h, hs, _ => by cases h; exact hs
  | (ks, v) :: rest, s, m, h, hs, hv => by
      obtain ⟨s', hd, htail⟩ := setAll_cons_elim h
      exact setAll_preserves_dictSafe rest s' m htail
        (go_preserves_dictSafe ks ks v s s' hd hs (hv (ks, v) (List.mem_cons_self _ _)))
        (fun x hx => hv x (List.mem_cons_of_mem _ hx))

theorem setAll_SetOK_backward : ∀ (es : List (List PVal × PVal)) (s m : PVal)
    (q : List PVal), setAll es s = .ok m → s.dictSafe = true →
    (∀ x ∈ es, x.2.dictSafe = true) → SetOK m q → SetOK s q
  | [], s, m, q, h, _, _, hq => by cases h; exact hq
  | (ks, v) :: rest, s, m, q, h, hs, hv, hq => by
      obtain ⟨s', hd, htail⟩ := setAll_cons_elim h
      have hs' : s'.dictSafe = true :=
        go_preserves_dictSafe ks ks v s s' hd hs (hv (ks, v) (List.mem_cons_self _ _))
      exact go_preserves_SetOK_backward q ks ks v s s' hd hs
        (setAll_SetOK_backward rest s' m q htail hs'
          (fun x hx => hv x (List.mem_cons_of_mem _ hx)) hq)

theorem setAll_commute_front : ∀ (a : List (List PVal × PVal))
    (e : List PVal × PVal) (b : List (List PVal × PVal)) (s r : PVal),
    setAll (a ++ e :: b) s = .ok r →
    (∀ f ∈ a, ¬ (f.1 <+: e.1)) → s.dictSafe = true →
    (∀ x ∈ a ++ e :: b, x.2.dictSafe = true) →
    ∃ r', setAll (e :: (a ++ b)) s = .ok r' ∧ CEquiv r' r
  | [], e, b, s, r, h, _, _, _ => ⟨r, h, cequiv_refl r⟩
  | f :: a', e, b, s, r, h, hnp, hs, hval => by
      obtain ⟨ek, ev⟩ := e
      obtain ⟨fk, fv⟩ := f
      obtain ⟨sf, hf, htail⟩ := setAll_cons_elim h
      have hfv : fv.dictSafe = true := hval (fk, fv) (by simp)
      have hsf : sf.dictSafe = true := go_preserves_dictSafe fk fk fv s sf hf hs hfv
      obtain ⟨r1, hr1, hc1⟩ := setAll_commute_front a' (ek, ev) b sf r htail
        (fun g hg => hnp g (List.mem_cons_of_mem (fk, fv) hg)) hsf
        (fun x hx => hval x (List.mem_cons_of_mem _ hx))
      obtain ⟨sfe, he_sf, htail1⟩ := setAll_cons_elim hr1
      obtain ⟨se, sef, he_s, hf_se, hceq⟩ := go_swap fk ek fk ek fv ev s sf sfe
        hf he_sf (hnp (fk, fv) (List.mem_cons_self (fk, fv) a')) hs hfv
      obtain ⟨r2, hr2, hc2⟩ :=
        setAll_congr (a' ++ b) sfe sef r1 htail1 (cequiv_symm hceq)
      refine ⟨r2, ?_, cequiv_trans (cequiv_symm hc2) hc1⟩
      show setAll ((ek, ev) :: (fk, fv) :: (a' ++ b)) s = .ok r2
      rw [setAll_cons_ok he_s, setAll_cons_ok hf_se]
      exact hr2

theorem setAll_perm : ∀ (n : Nat) (es1 es2 : List (List PVal × PVal))
    (s1 s2 r1 r2 : PVal), es1.length = n → es1.Perm es2 → CEquiv s1 s2 →
    s1.dictSafe = true → s2.dictSafe = true →
    (∀ x ∈ es1, x.2.dictSafe = true) →
    setAll es1 s1 = .ok r1 → setAll es2 s2 = .ok r2 → CEquiv r1 r2
  | 0, es1, es2, s1, s2, r1, r2, hlen, hperm, hs, _, _, _, h1, h2 => by
      rw [List.length_eq_zero] at hlen
      subst hlen
      obtain rfl : es2 = [] := (List.Perm.nil_eq hperm).symm
      cases h1
      cases h2
      exact hs
  | n + 1, [], es2, s1, s2, r1, r2, hlen, hperm, hs, _, _, _, h1, h2 => by
      simp at hlen
  | n + 1, e :: t1, es2, s1, s2, r1, r2, hlen, hperm, hs, hs1, hs2, hval, h1, h2 => by
      have he2 : e ∈ es2 := hperm.subset (List.mem_cons_self e t1)
      obtain ⟨a, b, rfl⟩ := List.append_of_mem he2
      have hperm' : t1.Perm (a ++ b) :=
        (hperm.trans List.perm_middle).cons_inv
      obtain ⟨m1, hstep1, htail1⟩ := setAll_cons_elim h1
      have hval2 : ∀ x ∈ a ++ e :: b, x.2.dictSafe = true := by
        intro x hx
        rcases List.mem_append.mp hx with hxa | hxe
        · exact hval x (List.mem_cons_of_mem e
            (hperm'.symm.subset (List.mem_append.mpr (Or.inl hxa))))
        · rcases List.mem_cons.mp hxe with rfl | hxb
          · exact hval x (List.mem_cons_self x t1)
          · exact hval x (List.mem_cons_of_mem e
              (hperm'.symm.subset (List.mem_append.mpr (Or.inr hxb))))
      have hnp : ∀ f ∈ a, ¬ (f.1 <+: e.1) := by
        rintro ⟨fk, fv⟩ hfa hpre
        have hft1 : (fk, fv) ∈ t1 :=
          hperm'.symm.subset (List.mem_append.mpr (Or.inl hfa))
        have hhp : hasPath m1 e.1 :=
          go_establishes_hasPath e.1 e.1 e.2 s1 m1 hstep1 hs1
        have hhpf : hasPath m1 fk :=
          hasPath_of_prefix fk e.1 m1 hhp hpre
        exact setAll_fails_on_hasPath t1 m1 fk fv hft1 hhpf r1 htail1
      obtain ⟨r2', hr2', hc2⟩ := setAll_commute_front a e b s2 r2 h2 hnp hs2 hval2
      obtain ⟨m2, hstep2, htail2⟩ := setAll_cons_elim hr2'
      obtain ⟨m2', hstep2', hcm⟩ := go_congr e.1 e.1 e.2 s1 s2 m1 hstep1 hs
      have hm2 : m2' = m2 := by
        have := hstep2'.symm.trans hstep2
        exact Except.ok.inj this
      subst hm2
      have hval_e : e.2.dictSafe = true := hval e (List.mem_cons_self e t1)
      have hrec : CEquiv r1 r2' :=
        setAll_perm n t1 (a ++ b) m1 m2' r1 r2'
          (by simpa using hlen) hperm' hcm
          (go_preserves_dictSafe e.1 e.1 e.2 s1 m1 hstep1 hs1 hval_e)
          (go_preserves_dictSafe e.1 e.1 e.2 s2 m2' hstep2 hs2 hval_e)
          (fun x hx => hval x (List.mem_cons_of_mem e hx))
          htail1 htail2
      exact cequiv_trans hrec hc2

theorem setAll_cons_err {ks : List PVal} {v : PVal}
    {rest : List (List PVal × PVal)} {s : PVal} {e : PyErr}
    (h : nested_set_dict s ks v = .error e) :
    setAll ((ks, v) :: rest) s = .error e := by
  simp [setAll, h, Bind.bind, Except.bind]

theorem unflatten_ok_iff (d : List (PVal × PVal)) (split : PVal → List PVal)
    (inv : Bool) (lit : List PType) (fill : PVal) (r : PVal) :
    unflatten d split inv lit fill = .ok r ↔
      setAll (d.map fun kv =>
        (split (if inv then (kv.2, kv.1) else kv).1,
          (if inv then (kv.2, kv.1) else kv).2)) (.dict .nil) = .ok r := by
  rw [unflatten]
  cases hs : setAll (d.map fun kv =>
      (split (if inv then (kv.2, kv.1) else kv).1,
        (if inv then (kv.2, kv.1) else kv).2)) (.dict .nil) with
  | error e => simp [hs, Except.map]
  | ok u => simp [hs, Except.map, nested_convert_to_list]

theorem unflatten_false_ok_iff (d : List (PVal × PVal))
    (split : PVal → List PVal) (lit : List PType) (fill : PVal) (r : PVal) :
    unflatten d split false lit fill = .ok r ↔
      setAll (d.map fun kv => (split kv.1, kv.2)) (.dict .nil) = .ok r := by
  rw [unflatten_ok_iff]
  simp

theorem unflatten_false_err (d : List (PVal × PVal))
    (split : PVal → List PVal) (lit : List PType) (fill : PVal) (e : PyErr)
    (h : setAll (d.map fun kv => (split kv.1, kv.2)) (.dict .nil) = .error e) :
    unflatten d split false lit fill = .error e := by
  rw [unflatten]
  have hmap : (d.map fun kv =>
      (split (if false = true then (kv.2, kv.1) else kv).1,
        (if false = true then (kv.2, kv.1) else kv).2)) =
      d.map fun kv => (split kv.1, kv.2) := by simp
  rw [hmap, h]
  simp [Except.map]

/-- C7 (corrected): if two entries of the flat mapping split to the same
key tuple and every entry preceding the first of them stores a value free
of lists and tuples (hereditarily through dict values), `unflatten`
returns no structure (first conjunct) — the colliding path then exists as
a chain of dict entries when the second colliding entry arrives, and
`key in d` on a dict detects it; on a clean two-entry flat mapping whose
keys split to the same non-empty key tuple of hashable segments it raises
exactly the duplicate-key `ValueError` carrying the offending key tuple
(second conjunct).  The claim's unrestricted form is false of the
program: when an earlier entry plants a list leaf on the colliding path,
`key in d` on the list is value membership and `d[key] = value` is index
assignment, so the collision is silently overwritten (see the
counterexample `unflatten_list_leaf_overwrite`). -/
theorem unflatten_duplicate_terminal_path :
    (∀ (split : PVal → List PVal) (lit : List PType) (fill : PVal)
       (A B C : List (PVal × PVal)) (k1 v1 k2 v2 : PVal),
       split k1 = split k2 →
       (∀ kv ∈ A, (kv.2 : PVal).dictSafe = true) →
       ∀ r, unflatten (A ++ (k1, v1) :: B ++ (k2, v2) :: C) split false lit fill ≠
         .ok r) ∧
    (∀ (split : PVal → List PVal) (lit : List PType) (fill : PVal)
       (k1 v1 k2 v2 : PVal),
       split k1 = split k2 → split k1 ≠ [] →
       (∀ k ∈ split k1, k.hashable = true) →
       unflatten [(k1, v1), (k2, v2)] split false lit fill =
         .error (.duplicatedKeyPath (split k2))) := by
  constructor
  · intro split lit fill A B C k1 v1 k2 v2 hspl hA r h
    rw [unflatten_false_ok_iff] at h
    simp only [List.map_append, List.map_cons, List.cons_append,
      List.append_assoc] at h
    obtain ⟨m0, hA0, h'⟩ := setAll_ok_split (A.map fun kv => (split kv.1, kv.2))
      ((split k1, v1) :: ((B.map fun kv => (split kv.1, kv.2)) ++
        ((split k2, v2) :: C.map fun kv => (split kv.1, kv.2)))) _ _ h
    obtain ⟨m1, hstep, htail⟩ := setAll_cons_elim h'
    have hm0 : m0.dictSafe = true :=
      setAll_preserves_dictSafe (A.map fun kv => (split kv.1, kv.2)) _ m0 hA0
        (by simp [PVal.dictSafe, PDict.dictSafeD])
        (by
          intro x hx
          obtain ⟨kv, hkv, rfl⟩ := List.mem_map.mp hx
          exact hA kv hkv)
    have hhp : hasPath m1 (split k2) := by
      rw [← hspl]
      exact go_establishes_hasPath (split k1) (split k1) v1 m0 m1 hstep hm0
    exact setAll_fails_on_hasPath _ m1 (split k2) v2
      (List.mem_append.mpr (Or.inr (List.mem_cons_self _ _))) hhp r htail
  · intro split lit fill k1 v1 k2 v2 hspl hne hhash
    obtain ⟨t, ht⟩ := SetOK_go_ok (split k1) (split k1) v1 (.dict .nil)
      (SetOK_fresh (split k1) hne hhash)
    have hhp : hasPath t (split k2) := by
      rw [← hspl]
      exact go_establishes_hasPath (split k1) (split k1) v1 (.dict .nil) t ht
        (by simp [PVal.dictSafe, PDict.dictSafeD])
    have herr : nested_set_dict t (split k2) v2 =
        .error (.duplicatedKeyPath (split k2)) :=
      go_fails_on_hasPath (split k2) (split k2) v2 t hhp (hspl ▸ hne)
    exact unflatten_false_err _ _ _ _ _
      (by rw [List.map_cons, List.map_cons, List.map_nil,
        setAll_cons_ok ht, setAll_cons_err herr])

/-- Witness for `unflatten_duplicate_terminal_path`: a constant splitter
sends the distinct flat keys `"x"` and `"y"` to the same key tuple
`("a",)`. -/
theorem unflatten_duplicate_terminal_path_witness :
    (∀ r, unflatten [(PVal.str "x", PVal.int 1), (PVal.str "y", PVal.int 2)]
      (fun _ => [PVal.str "a"]) false [PType.listIndex] PVal.none ≠ .ok r) ∧
    unflatten [(PVal.str "x", PVal.int 1), (PVal.str "y", PVal.int 2)]
      (fun _ => [PVal.str "a"]) false [PType.listIndex] PVal.none =
      .error (.duplicatedKeyPath [PVal.str "a"]) :=
  ⟨fun r => unflatten_duplicate_terminal_path.1 (fun _ => [PVal.str "a"])
      [PType.listIndex] PVal.none [] [] [] (PVal.str "x") (PVal.int 1)
      (PVal.str "y") (PVal.int 2) rfl (by simp) r,
   unflatten_duplicate_terminal_path.2 (fun _ => [PVal.str "a"])
      [PType.listIndex] PVal.none (PVal.str "x") (PVal.int 1)
      (PVal.str "y") (PVal.int 2) rfl (by simp)
      (by intro k hk; simp at hk; subst hk; rfl)⟩

/-- Counterexample to C7 as claimed: under a splitter sending `"k0"` to
`("a",)` and both `"k1"` and `"k2"` to `("a", 0)`, the flat mapping
`{"k0": [5], "k1": 7, "k2": 9}` has two distinct entries whose keys split
to the same key tuple, yet `unflatten` returns `{"a": [9]}`: the first
collision `7` is index-assigned into the list leaf `[5]` (`0 in [5]` is
`False`, so no duplicate is detected, and `[5][0] = 7` succeeds), and the
second collision silently overwrites it with `9`. -/
theorem unflatten_list_leaf_overwrite :
    (fun v => if v = PVal.str "k0" then [PVal.str "a"]
      else [PVal.str "a", PVal.int 0]) (PVal.str "k1") =
      (fun v => if v = PVal.str "k0" then [PVal.str "a"]
        else [PVal.str "a", PVal.int 0]) (PVal.str "k2") ∧
    PVal.str "k1" ≠ PVal.str "k2" ∧
    unflatten [(PVal.str "k0", pl [PVal.int 5]), (PVal.str "k1", PVal.int 7),
        (PVal.str "k2", PVal.int 9)]
      (fun v => if v = PVal.str "k0" then [PVal.str "a"]
        else [PVal.str "a", PVal.int 0]) false [PType.listIndex] PVal.none =
      .ok (pd [(PVal.str "a", pl [PVal.int 9])]) :=
  ⟨by decide, by decide, by rfl⟩

/-- C8 (corrected): permuting the entries of the flat mapping never
changes the contents of a returned structure, provided every value the
entries store (their original keys when `inverse=True`) is free of lists
and tuples hereditarily through dict values (`dictSafe`): writes then only
ever create or extend dicts, where the duplicate check makes colliding
orders fail instead of differing.  The claim's unrestricted form is false
of the program: two orders of the same entries can both return, with
different contents, when a later entry is index-assigned into a list leaf
written by an earlier one (see the counterexample
`unflatten_order_dependent_on_list_leaf`). -/
theorem unflatten_order_independent (split : PVal → List PVal)
    (inverse : Bool) (lit : List PType) (fill : PVal)
    (l1 l2 : List (PVal × PVal)) (r1 r2 : PVal) (hperm : l1.Perm l2)
    (hval : ∀ kv ∈ l1, (if inverse then kv.1 else kv.2).dictSafe = true)
    (h1 : unflatten l1 split inverse lit fill = .ok r1)
    (h2 : unflatten l2 split inverse lit fill = .ok r2) : CEquiv r1 r2 := by
  rw [unflatten_ok_iff] at h1 h2
  refine setAll_perm _ _ _ _ _ r1 r2 rfl
    (hperm.map fun kv =>
      (split (if inverse then (kv.2, kv.1) else kv).1,
        (if inverse then (kv.2, kv.1) else kv).2))
    (cequiv_refl (.dict .nil)) (by simp [PVal.dictSafe, PDict.dictSafeD])
    (by simp [PVal.dictSafe, PDict.dictSafeD]) ?_ h1 h2
  intro x hx
  obtain ⟨kv, hkv, rfl⟩ := List.mem_map.mp hx
  have := hval kv hkv
  cases inverse <;> simpa using this

/-- Witness for `unflatten_order_independent`: the two orders of the flat
mapping `{("a",): 1, ("b",): 2}` both unflatten, with equivalent results. -/
theorem unflatten_order_independent_witness :
    CEquiv (pd [(.str "a", .int 1), (.str "b", .int 2)])
      (pd [(.str "b", .int 2), (.str "a", .int 1)]) :=
  unflatten_order_independent tuple_splitter false [.listIndex] .none
    [(pt [.str "a"], .int 1), (pt [.str "b"], .int 2)]
    [(pt [.str "b"], .int 2), (pt [.str "a"], .int 1)]
    (pd [(.str "a", .int 1), (.str "b", .int 2)])
    (pd [(.str "b", .int 2), (.str "a", .int 1)])
    (List.Perm.swap _ _ _)
    (by decide)
    (by rfl)
    (by rfl)

/-- Counterexample to C8 as claimed: with a splitter sending `"w"` to
`("a",)` and both `"x"` and `"y"` to `("a", 0)`, the flat mappings
`{"w": [1, 2], "x": 10, "y": 20}` and `{"w": [1, 2], "y": 20, "x": 10}`
are permutations of each other and both unflatten successfully, but to
`{"a": [20, 2]}` and `{"a": [10, 2]}` respectively: each colliding entry
is index-assigned into the list leaf, the one processed last wins, and
the returned contents depend on the iteration order. -/
theorem unflatten_order_dependent_on_list_leaf :
    List.Perm
      [(PVal.str "w", pl [PVal.int 1, PVal.int 2]), (PVal.str "x", PVal.int 10),
        (PVal.str "y", PVal.int 20)]
      [(PVal.str "w", pl [PVal.int 1, PVal.int 2]), (PVal.str "y", PVal.int 20),
        (PVal.str "x", PVal.int 10)] ∧
    unflatten [(PVal.str "w", pl [PVal.int 1, PVal.int 2]),
        (PVal.str "x", PVal.int 10), (PVal.str "y", PVal.int 20)]
      (fun v => if v = PVal.str "w" then [PVal.str "a"]
        else [PVal.str "a", PVal.int 0]) false [PType.listIndex] PVal.none =
      .ok (pd [(PVal.str "a", pl [PVal.int 20, PVal.int 2])]) ∧
    unflatten [(PVal.str "w", pl [PVal.int 1, PVal.int 2]),
        (PVal.str "y", PVal.int 20), (PVal.str "x", PVal.int 10)]
      (fun v => if v = PVal.str "w" then [PVal.str "a"]
        else [PVal.str "a", PVal.int 0]) false [PType.listIndex] PVal.none =
      .ok (pd [(PVal.str "a", pl [PVal.int 10, PVal.int 2])]) ∧
    ¬ CEquiv (pd [(PVal.str "a", pl [PVal.int 20, PVal.int 2])])
      (pd [(PVal.str "a", pl [PVal.int 10, PVal.int 2])]) := by
  refine ⟨.cons _ (.swap _ _ _), by rfl, by rfl, ?_⟩
  intro h
  cases h with
  | dict hd =>
      have hoe := CDEquiv.lookup_equiv hd (PVal.str "a")
      have hC : CEquiv (pl [PVal.int 20, PVal.int 2])
          (pl [PVal.int 10, PVal.int 2]) := hoe
      cases hC
